import Mathlib

/-!
Verification development for the uma-db-alert change-detection core.

The definitions below are a shallow embedding of the Python sources:
  * `utils/state.py`   — normalization, fingerprinting, state store, trim, seeding
  * `orchestrator.py`  — the selection (`filter_new_or_changed`) and the run driver
  * `formatters/discord_forum.py` — the presentation-side whitespace cleaner

Python strings are modeled as Lean `String` (a list of unicode code points,
matching CPython's code-point semantics for indexing, comparison and equality).
Python `dict`s with string keys are modeled as association lists in insertion
order (CPython dicts preserve insertion order; assignment to an existing key
keeps its position, a new key is appended).  Machine integers do not occur:
all Python ints in play are small non-negative configuration values, modeled
as `Nat`.  Exceptions (`KeyError` on `r["trainer_id"]`, `json.JSONDecodeError`
in `load`) are modeled with `Except`.
-/

/-- Python whitespace (the set matched by `re`'s `\s` on `str` patterns and by
`str.strip()` / `str.isspace()`): the ASCII whitespace and separator control
characters plus the Unicode space separators. -/
def pyIsSpace (c : Char) : Bool :=
  let n := c.toNat
  (9 ≤ n && n ≤ 13) || (28 ≤ n && n ≤ 31) || n == 32 || n == 133 || n == 160 ||
  n == 5760 || (8192 ≤ n && n ≤ 8202) || n == 8232 || n == 8233 || n == 8239 ||
  n == 8287 || n == 12288

/-! ## A model of `unicodedata.normalize("NFKC", ·)`

The sources call CPython's NFKC normalization (`utils/state.py` line 66,
`formatters/discord_forum.py` line 23, `utils/state.py` line 34).  We embed the
Unicode NFKC algorithm (compatibility decomposition, canonical reordering,
canonical composition) restricted to the character repertoire exercised by this
development; characters outside the tables below are NFKC-inert here.  The
tables are faithful excerpts of the Unicode data: U+00A0 (NBSP) and U+3000
(ideographic space) decompose to an ordinary space, the fullwidth parentheses
and comma decompose to their ASCII forms, U+0301 COMBINING ACUTE ACCENT has
canonical combining class 230, and `a` + U+0301 composes to U+00E1.

The excerpts are deliberately incomplete — for instance U+FF9E HALFWIDTH
KATAKANA VOICED SOUND MARK really decomposes to the combining mark U+3099
(class 8), which composes with カ to ガ, and none of that is in the tables.
Universally quantified theorems about the normalizer therefore restrict their
domain to ASCII strings, on which real NFKC is the identity and the tables
are complete; concrete non-ASCII inputs appear only where the tables cover
them exactly. -/

/-- U+00A0 NO-BREAK SPACE. -/
def chNbsp : Char := Char.ofNat 160

/-- U+200B ZERO WIDTH SPACE. -/
def chZwsp : Char := Char.ofNat 8203

/-- U+FEFF ZERO WIDTH NO-BREAK SPACE (byte-order mark). -/
def chBom : Char := Char.ofNat 65279

/-- U+3000 IDEOGRAPHIC SPACE. -/
def chIdeoSp : Char := Char.ofNat 12288

/-- U+FF08 FULLWIDTH LEFT PARENTHESIS. -/
def chFwLp : Char := Char.ofNat 65288

/-- U+FF09 FULLWIDTH RIGHT PARENTHESIS. -/
def chFwRp : Char := Char.ofNat 65289

/-- U+FF0C FULLWIDTH COMMA. -/
def chFwComma : Char := Char.ofNat 65292

/-- U+0301 COMBINING ACUTE ACCENT. -/
def chAcute : Char := Char.ofNat 769

/-- U+00E1 LATIN SMALL LETTER A WITH ACUTE. -/
def chAAcute : Char := Char.ofNat 225

/-- Compatibility decompositions (restricted Unicode table). -/
def kDecomp (c : Char) : Option (List Char) :=
  if c = chNbsp then some [' ']
  else if c = chIdeoSp then some [' ']
  else if c = chFwLp then some ['(']
  else if c = chFwRp then some [')']
  else if c = chFwComma then some [',']
  else none

/-- Canonical combining class (restricted Unicode table). -/
def cccM (c : Char) : Nat :=
  if c = chAcute then 230 else 0

/-- Primary canonical composition pairs (restricted Unicode table). -/
def composePair (a b : Char) : Option Char :=
  if a = 'a' && b = chAcute then some chAAcute else none

/-- Full decomposition step: every character is replaced by its (compatibility)
decomposition; the table's images are themselves decomposition-free, so a
single pass reaches the fixed point. -/
def decomposeL (l : List Char) : List Char :=
  l.foldr (fun c acc => ((kDecomp c).getD [c]) ++ acc) []

/-- Moves a non-starter left past characters of strictly larger combining
class (canonical ordering insertion on the reversed prefix). -/
def insertCanon (c : Char) : List Char → List Char
  | [] => [c]
  | d :: ds => if cccM c < cccM d then d :: insertCanon c ds else c :: d :: ds

/-- Canonical-ordering step of the normalization algorithm. -/
def reorderL (l : List Char) : List Char :=
  (l.foldl (fun acc c => if cccM c = 0 then c :: acc else insertCanon c acc) []).reverse

/-- Canonical composition walk: `st` is the last starter, `marksRev` the
combining marks seen after it (reversed).  A mark combines with the last
starter when it is not blocked by a previous mark of combining class at least
its own. -/
def compGo (st : Char) (marksRev : List Char) : List Char → List Char
  | [] => st :: marksRev.reverse
  | c :: cs =>
    if cccM c = 0 then (st :: marksRev.reverse) ++ compGo c [] cs
    else
      match marksRev with
      | [] =>
        match composePair st c with
        | some d => compGo d [] cs
        | none => compGo st [c] cs
      | m :: ms =>
        if cccM m < cccM c then
          match composePair st c with
          | some d => compGo d (m :: ms) cs
          | none => compGo st (c :: m :: ms) cs
        else compGo st (c :: m :: ms) cs

/-- Canonical composition step; combining marks before the first starter
cannot compose and are emitted as-is. -/
def composeL : List Char → List Char
  | [] => []
  | c :: cs => if cccM c = 0 then compGo c [] cs else c :: composeL cs

/-- `unicodedata.normalize("NFKC", s)` on the code-point list. -/
def nfkcL (l : List Char) : List Char :=
  composeL (reorderL (decomposeL l))

/-- `unicodedata.normalize("NFKC", s)`. -/
def nfkcStr (s : String) : String :=
  String.mk (nfkcL s.data)

/-! ## The regex pipeline combinators

Each `re.sub` in the sources deletes or rewrites whitespace runs; since none
of the substituted sets contains a whitespace character, the regex semantics
reduce to the run-based scans below. -/

/-- `re.sub(r"\s+", " ", s)`: every maximal whitespace run becomes a single
ASCII space.  The boolean records whether we are inside a run. -/
def collapseGo : Bool → List Char → List Char
  | _, [] => []
  | inRun, c :: cs =>
    if pyIsSpace c then
      if inRun then collapseGo true cs else ' ' :: collapseGo true cs
    else c :: collapseGo false cs

/-- `re.sub(r"\s+", " ", s)`. -/
def collapseWs (l : List Char) : List Char :=
  collapseGo false l

/-- `str.strip()` on the code-point list. -/
def pyStripL (l : List Char) : List Char :=
  ((l.dropWhile pyIsSpace).reverse.dropWhile pyIsSpace).reverse

/-- `str.strip()`. -/
def pyStrip (s : String) : String :=
  String.mk (pyStripL s.data)

/-- `re.sub(r"\s+(X)", r"\1", s)` for a character class `p` containing no
whitespace: delete every maximal whitespace run that is immediately followed
by a `p`-character.  `run` holds the pending run, reversed. -/
def subBGo (p : Char → Bool) (run : List Char) : List Char → List Char
  | [] => run.reverse
  | c :: cs =>
    if pyIsSpace c then subBGo p (c :: run) cs
    else if p c then c :: subBGo p [] cs
    else run.reverse ++ (c :: subBGo p [] cs)

/-- `re.sub(r"\s+(X)", r"\1", s)` for the class `p`. -/
def subWsBefore (p : Char → Bool) (l : List Char) : List Char :=
  subBGo p [] l

/-- `re.sub(r"(X)\s+", r"\1", s)` for a character class `p` containing no
whitespace: delete every whitespace run immediately preceded by a
`p`-character.  The boolean records whether the previous kept character was in
`p` (or we are still inside a run started after one). -/
def subAGo (p : Char → Bool) : Bool → List Char → List Char
  | _, [] => []
  | dropWs, c :: cs =>
    if dropWs && pyIsSpace c then subAGo p true cs
    else if p c then c :: subAGo p true cs
    else c :: subAGo p false cs

/-- `re.sub(r"(X)\s+", r"\1", s)` for the class `p`. -/
def subWsAfter (p : Char → Bool) (l : List Char) : List Char :=
  subAGo p false l

/-- The NBSP / zero-width substitutions shared by both cleaners:
`s.replace(" ", " ").replace("​", "").replace("﻿", "")`. -/
def replNbspZw (l : List Char) : List Char :=
  l.foldr
    (fun c acc =>
      if c = chNbsp then ' ' :: acc
      else if c = chZwsp then acc
      else if c = chBom then acc
      else c :: acc) []

/-- Closing characters of `re.sub(r"\s+([)\]])", ...)` in `_clean_token`. -/
def closeTok (c : Char) : Bool :=
  c = ')' || c = ']'

/-- Opening characters of `re.sub(r"([(\[])\s+", ...)` in `_clean_token`. -/
def openTok (c : Char) : Bool :=
  c = '(' || c = '['

/-- The comma class of `re.sub(r"\s+,", ",", s)`. -/
def commaTok (c : Char) : Bool :=
  c = ','

/-- The `_clean_token` pipeline on the code-point list, one step per source
line (`utils/state.py` lines 66-71): NFKC, NBSP/zero-width cleanup,
whitespace collapse and strip, then tightening of spaces before commas and
closing brackets and after opening brackets. -/
def tokPipeline (l : List Char) : List Char :=
  subWsAfter openTok
    (subWsBefore closeTok
      (subWsBefore commaTok
        (pyStripL (collapseWs (replNbspZw (nfkcL l))))))

/-- `utils/state.py` lines 64-72, `_clean_token` (`if not s: return ""`,
then the pipeline). -/
def clean_token (s : String) : String :=
  if s = "" then "" else String.mk (tokPipeline s.data)

/-- Closing characters of `re.sub(r"\s+([)\]\},;:!?])", ...)` in `_clean_ws`. -/
def closeWsSet (c : Char) : Bool :=
  c = ')' || c = ']' || c = '}' || c = ',' || c = ';' || c = ':' || c = '!' || c = '?'

/-- Opening characters of `re.sub(r"([(\[{])\s+", ...)` in `_clean_ws`. -/
def openWsSet (c : Char) : Bool :=
  c = '(' || c = '[' || c = '{'

/-- `formatters/discord_forum.py` lines 18-39, `_clean_ws`: NFKC, NBSP and
zero-width cleanup, whitespace collapse, punctuation tightening, final strip. -/
def clean_ws (s : String) : String :=
  if s = "" then ""
  else
    let l1 := nfkcL s.data
    let l2 := replNbspZw l1
    let l3 := collapseWs l2
    let l4 := subWsBefore closeWsSet l3
    let l5 := subWsAfter openWsSet l4
    let l6 := subWsBefore (fun c => c = ',') l5
    String.mk (pyStripL l6)

/-! ## Python string ordering and `sorted` -/

/-- Python's `<` on strings: lexicographic comparison of code points. -/
def lexLt : List Char → List Char → Bool
  | [], [] => false
  | [], _ :: _ => true
  | _ :: _, [] => false
  | a :: as1, b :: bs1 =>
    if a.toNat < b.toNat then true
    else if b.toNat < a.toNat then false
    else lexLt as1 bs1

/-- Python's `<=` on strings (code-point lexicographic). -/
def strLe (a b : String) : Bool :=
  !(lexLt b.data a.data)

/-- `sorted` on a list of strings (ascending, stable; on strings stability is
irrelevant because equal elements are identical). -/
def sortedPy (l : List String) : List String :=
  List.insertionSort (fun a b => strLe a b = true) l

/-! ## SHA-1 (`hashlib.sha1(...).hexdigest()`)

The store hashes UTF-8 bytes with SHA-1 and uses the lowercase hex digest
(`utils/state.py` lines 58 and 79).  The algorithm is embedded below over
`Nat` with explicit reduction modulo 2^32. -/

/-- UTF-8 encoding of one code point. -/
def charUtf8 (c : Char) : List Nat :=
  let n := c.toNat
  if n < 128 then [n]
  else if n < 2048 then [192 + n / 64, 128 + n % 64]
  else if n < 65536 then [224 + n / 4096, 128 + (n / 64) % 64, 128 + n % 64]
  else [240 + n / 262144, 128 + (n / 4096) % 64, 128 + (n / 64) % 64, 128 + n % 64]

/-- `s.encode("utf-8")` as a byte list. -/
def utf8Bytes (s : String) : List Nat :=
  s.data.foldr (fun c acc => charUtf8 c ++ acc) []

/-- Truncation to a 32-bit word. -/
def w32 (x : Nat) : Nat :=
  x % 4294967296

/-- 32-bit left rotation. -/
def rotl32 (n x : Nat) : Nat :=
  w32 ((x <<< n) ||| (x >>> (32 - n)))

/-- SHA-1 message padding: `0x80`, zeros to 56 mod 64, 8-byte big-endian bit
length. -/
def sha1Pad (msg : List Nat) : List Nat :=
  let lenBits := msg.length * 8
  let zeros := (120 - ((msg.length + 1) % 64)) % 64
  msg ++ [128] ++ List.replicate zeros 0 ++
    [(lenBits >>> 56) % 256, (lenBits >>> 48) % 256, (lenBits >>> 40) % 256,
     (lenBits >>> 32) % 256, (lenBits >>> 24) % 256, (lenBits >>> 16) % 256,
     (lenBits >>> 8) % 256, lenBits % 256]

/-- Big-endian 32-bit words from a byte list. -/
def bytesToWords : List Nat → List Nat
  | b0 :: b1 :: b2 :: b3 :: rest =>
    ((b0 <<< 24) ||| (b1 <<< 16) ||| (b2 <<< 8) ||| b3) :: bytesToWords rest
  | _ => []

/-- 64-byte chunks of the padded message (`fuel` bounds the recursion). -/
def chunk64 : Nat → List Nat → List (List Nat)
  | 0, _ => []
  | _ + 1, [] => []
  | fuel + 1, l => l.take 64 :: chunk64 fuel (l.drop 64)

/-- Message-schedule extension from 16 to 80 words. -/
def sha1Extend : Nat → List Nat → List Nat
  | 0, w => w
  | n + 1, w =>
    let k := w.length
    let x := (w.getD (k - 3) 0) ^^^ (w.getD (k - 8) 0) ^^^
             (w.getD (k - 14) 0) ^^^ (w.getD (k - 16) 0)
    sha1Extend n (w ++ [rotl32 1 x])

/-- Round function of SHA-1. -/
def sha1F (t b c d : Nat) : Nat :=
  if t < 20 then (b &&& c) ||| ((4294967295 ^^^ b) &&& d)
  else if t < 40 then b ^^^ c ^^^ d
  else if t < 60 then (b &&& c) ||| (b &&& d) ||| (c &&& d)
  else b ^^^ c ^^^ d

/-- Round constants of SHA-1. -/
def sha1K (t : Nat) : Nat :=
  if t < 20 then 1518500249
  else if t < 40 then 1859775393
  else if t < 60 then 2400959708
  else 3395469782

/-- One compression round. -/
def sha1Round (st : Nat × Nat × Nat × Nat × Nat) (tw : Nat × Nat) :
    Nat × Nat × Nat × Nat × Nat :=
  let a := st.1
  let b := st.2.1
  let c := st.2.2.1
  let d := st.2.2.2.1
  let e := st.2.2.2.2
  let tmp := w32 (rotl32 5 a + sha1F tw.1 b c d + e + sha1K tw.1 + tw.2)
  (tmp, a, rotl32 30 b, c, d)

/-- One 512-bit block of the compression function. -/
def sha1Block (h : Nat × Nat × Nat × Nat × Nat) (block : List Nat) :
    Nat × Nat × Nat × Nat × Nat :=
  let w := sha1Extend 64 (bytesToWords block)
  let st := ((List.range 80).zip w).foldl sha1Round h
  (w32 (h.1 + st.1), w32 (h.2.1 + st.2.1), w32 (h.2.2.1 + st.2.2.1),
   w32 (h.2.2.2.1 + st.2.2.2.1), w32 (h.2.2.2.2 + st.2.2.2.2))

/-- Lowercase hex digit. -/
def hexDigit (n : Nat) : Char :=
  if n < 10 then Char.ofNat (48 + n) else Char.ofNat (87 + n)

/-- Lowercase 8-digit hex rendering of a 32-bit word. -/
def wordHex (x : Nat) : List Char :=
  [hexDigit ((x >>> 28) % 16), hexDigit ((x >>> 24) % 16),
   hexDigit ((x >>> 20) % 16), hexDigit ((x >>> 16) % 16),
   hexDigit ((x >>> 12) % 16), hexDigit ((x >>> 8) % 16),
   hexDigit ((x >>> 4) % 16), hexDigit (x % 16)]

/-- `hashlib.sha1(bytes).hexdigest()`. -/
def sha1HexBytes (msg : List Nat) : String :=
  let padded := sha1Pad msg
  let blocks := chunk64 padded.length padded
  let h := blocks.foldl sha1Block
    (1732584193, 4023233417, 2562383102, 271733878, 3285377520)
  String.mk (wordHex h.1 ++ wordHex h.2.1 ++ wordHex h.2.2.1 ++
             wordHex h.2.2.2.1 ++ wordHex h.2.2.2.2)

/-- `hashlib.sha1(s.encode("utf-8")).hexdigest()`. -/
def sha1Hex (s : String) : String :=
  sha1HexBytes (utf8Bytes s)

/-! ## The fingerprint (`utils/state.py` lines 74-79) -/

/-- The list comprehension `[_clean_token(x) for x in (white_list or []) if
_clean_token(x)]`: normalize every tag, drop tags that normalize to empty. -/
def cleanTokens (white_list : List String) : List String :=
  white_list.foldr
    (fun x acc => if clean_token x = "" then acc else clean_token x :: acc) []

/-- `whites_fingerprint`: order-insensitive digest of the normalized tag
multiset — sort the cleaned tokens, join with U+001F, SHA-1 the UTF-8 bytes. -/
def whites_fingerprint (white_list : List String) : String :=
  sha1Hex (String.intercalate "\u001F" (sortedPy (cleanTokens white_list)))


/-! ## URL canonicalization (`utils/state.py` lines 32-61)

`_canon_url` uses `urllib.parse.urlsplit`, `parse_qsl`, `urlencode` and
`urlunsplit`.  These library functions are embedded below following CPython's
implementation (`Lib/urllib/parse.py`): `urlsplit` removes tab/CR/LF, strips
leading C0-control/space characters, recognizes a scheme only when the text
before the first colon is a letter followed by scheme characters, takes the
netloc after `//` up to the first `/?#`, then splits off fragment and query in
that order; `parse_qsl` splits on `&` and on the first `=` of each pair and
percent-decodes with `unquote_plus`; `urlencode` re-encodes each name and
value with `quote_plus` (space becomes `+`, everything outside the always-safe
set becomes uppercase `%XX` of its UTF-8 bytes).  Deep host validation inside
CPython's `urlsplit` (bracketed-IPv6 parsing, `_checknetloc`) is elided beyond
the bracket-mismatch `ValueError`; it is not exercised by any input here. -/

/-- Hexadecimal digit value (both cases), as used by `unquote`. -/
def hexVal (c : Char) : Option Nat :=
  if '0' ≤ c && c ≤ '9' then some (c.toNat - 48)
  else if 'a' ≤ c && c ≤ 'f' then some (c.toNat - 87)
  else if 'A' ≤ c && c ≤ 'F' then some (c.toNat - 55)
  else none

/-- UTF-8 decoding with U+FFFD replacement on malformed input
(`bytes.decode("utf-8", errors="replace")`; `fuel` bounds the recursion). -/
def utf8DecodeGo : Nat → List Nat → List Char
  | 0, _ => []
  | _ + 1, [] => []
  | fuel + 1, b :: bs =>
    if b < 128 then Char.ofNat b :: utf8DecodeGo fuel bs
    else if 194 ≤ b && b ≤ 223 then
      match bs with
      | b2 :: rest =>
        if 128 ≤ b2 && b2 ≤ 191 then
          Char.ofNat ((b - 192) * 64 + (b2 - 128)) :: utf8DecodeGo fuel rest
        else Char.ofNat 65533 :: utf8DecodeGo fuel bs
      | [] => [Char.ofNat 65533]
    else if 224 ≤ b && b ≤ 239 then
      match bs with
      | b2 :: b3 :: rest =>
        let n := (b - 224) * 4096 + (b2 - 128) * 64 + (b3 - 128)
        if 128 ≤ b2 && b2 ≤ 191 && 128 ≤ b3 && b3 ≤ 191 && 2048 ≤ n &&
            !(55296 ≤ n && n ≤ 57343) then
          Char.ofNat n :: utf8DecodeGo fuel rest
        else Char.ofNat 65533 :: utf8DecodeGo fuel bs
      | _ => Char.ofNat 65533 :: utf8DecodeGo fuel bs
    else if 240 ≤ b && b ≤ 244 then
      match bs with
      | b2 :: b3 :: b4 :: rest =>
        let n := (b - 240) * 262144 + (b2 - 128) * 4096 + (b3 - 128) * 64 + (b4 - 128)
        if 128 ≤ b2 && b2 ≤ 191 && 128 ≤ b3 && b3 ≤ 191 && 128 ≤ b4 && b4 ≤ 191 &&
            65536 ≤ n && n ≤ 1114111 then
          Char.ofNat n :: utf8DecodeGo fuel rest
        else Char.ofNat 65533 :: utf8DecodeGo fuel bs
      | _ => Char.ofNat 65533 :: utf8DecodeGo fuel bs
    else Char.ofNat 65533 :: utf8DecodeGo fuel bs

/-- UTF-8 decoding with replacement. -/
def utf8Decode (bs : List Nat) : List Char :=
  utf8DecodeGo (bs.length * 4 + 4) bs

/-- `urllib.parse.unquote`: percent-escapes are collected into byte runs and
UTF-8-decoded; malformed escapes stay literal.  `pend` is the reversed pending
byte run; `fuel` bounds the recursion. -/
def unquoteGo : Nat → List Nat → List Char → List Char
  | 0, pend, _ => utf8Decode pend.reverse
  | _ + 1, pend, [] => utf8Decode pend.reverse
  | fuel + 1, pend, c :: cs =>
    if c = '%' then
      match cs with
      | h1 :: h2 :: rest =>
        match hexVal h1, hexVal h2 with
        | some a, some b => unquoteGo fuel ((a * 16 + b) :: pend) rest
        | _, _ => utf8Decode pend.reverse ++ c :: unquoteGo fuel [] cs
      | _ => utf8Decode pend.reverse ++ c :: unquoteGo fuel [] cs
    else utf8Decode pend.reverse ++ c :: unquoteGo fuel [] cs

/-- `urllib.parse.unquote_plus`: `+` becomes a space, then percent-decoding. -/
def unquotePlus (s : String) : String :=
  let l := s.data.map (fun c => if c = '+' then ' ' else c)
  String.mk (unquoteGo l.length [] l)

/-- The always-safe byte set of `urllib.parse.quote` (letters, digits, and
`_.-~`). -/
def quoteSafe (b : Nat) : Bool :=
  (65 ≤ b && b ≤ 90) || (97 ≤ b && b ≤ 122) || (48 ≤ b && b ≤ 57) ||
  b == 95 || b == 46 || b == 45 || b == 126

/-- Uppercase hex digit, as produced by `quote`. -/
def hexDigitU (n : Nat) : Char :=
  if n < 10 then Char.ofNat (48 + n) else Char.ofNat (55 + n)

/-- `urllib.parse.quote_plus(s, safe="")`: UTF-8 encode, keep safe bytes,
encode a space as `+`, everything else as uppercase `%XX`. -/
def quotePlus (s : String) : String :=
  String.mk ((utf8Bytes s).foldr
    (fun b acc =>
      if quoteSafe b then Char.ofNat b :: acc
      else if b = 32 then '+' :: acc
      else '%' :: hexDigitU (b / 16) :: hexDigitU (b % 16) :: acc) [])

/-- Split a character list at the first occurrence of `ch`
(Python `s.split(ch, 1)`). -/
def splitFirstCh (ch : Char) : List Char → Option (List Char × List Char)
  | [] => none
  | c :: cs =>
    if c = ch then some ([], cs)
    else (splitFirstCh ch cs).map (fun p => (c :: p.1, p.2))

/-- `str.split(ch)` (split on every occurrence; `cur` is the reversed
current field). -/
def splitOnChGo (ch : Char) (cur : List Char) : List Char → List (List Char)
  | [] => [cur.reverse]
  | c :: cs =>
    if c = ch then cur.reverse :: splitOnChGo ch [] cs
    else splitOnChGo ch (c :: cur) cs

/-- `str.split(ch)`. -/
def splitOnCh (ch : Char) (s : String) : List String :=
  (splitOnChGo ch [] s.data).map String.mk

/-- `urllib.parse.parse_qsl(query, keep_blank_values=True)`. -/
def parse_qsl (query : String) : List (String × String) :=
  (splitOnCh '&' query).foldr
    (fun nv acc =>
      if nv = "" then acc
      else
        match splitFirstCh '=' nv.data with
        | none => (unquotePlus nv, "") :: acc
        | some (n, v) => (unquotePlus (String.mk n), unquotePlus (String.mk v)) :: acc)
    []

/-- Python tuple comparison `(a, b) <= (c, d)` on pairs of strings. -/
def pairLe (x y : String × String) : Bool :=
  if lexLt x.1.data y.1.data then true
  else if lexLt y.1.data x.1.data then false
  else strLe x.2 y.2

/-- `list.sort()` on `(name, value)` pairs. -/
def sortPairsPy (l : List (String × String)) : List (String × String) :=
  List.insertionSort (fun x y => pairLe x y = true) l

/-- `urllib.parse.urlencode(q)` with the default `quote_plus`. -/
def urlencodePy (q : List (String × String)) : String :=
  String.intercalate "&" (q.map (fun p => quotePlus p.1 ++ "=" ++ quotePlus p.2))

/-- The component record produced by `urlsplit`. -/
structure SplitUrl where
  scheme : String
  netloc : String
  path : String
  query : String
  fragment : String
deriving DecidableEq, Repr

/-- Scheme characters of `urllib.parse` (letters, digits, `+-.`). -/
def isSchemeChar (c : Char) : Bool :=
  c.isAlpha || c.isDigit || c == '+' || c == '-' || c == '.'

/-- Recognize `scheme:` at the start: the text before the first colon, when
non-empty, starting with an ASCII letter, and all scheme characters.  Returns
the remaining text on success.  `acc` is the reversed prefix scanned so far. -/
def splitSchemeGo (acc : List Char) : List Char → Option (List Char × List Char)
  | [] => none
  | c :: cs =>
    if c = ':' then
      match acc.reverse with
      | [] => none
      | s0 :: srest =>
        if s0.isAlpha && (s0 :: srest).all isSchemeChar then some (s0 :: srest, cs)
        else none
    else splitSchemeGo (c :: acc) cs

/-- Take the netloc: everything up to the first `/`, `?` or `#`. -/
def takeNetloc : List Char → List Char × List Char
  | [] => ([], [])
  | c :: cs =>
    if c = '/' || c = '?' || c = '#' then ([], c :: cs)
    else
      let p := takeNetloc cs
      (c :: p.1, p.2)

/-- ASCII lowering (`str.lower()`; non-ASCII case mappings are not exercised
by this development). -/
def toLowerStr (s : String) : String :=
  String.mk (s.data.map Char.toLower)

/-- `urllib.parse.urlsplit`; `Except.error` models the `ValueError` raised on
mismatched IPv6 brackets in the netloc. -/
def urlsplitE (u : String) : Except Unit SplitUrl := do
  let l0 := (u.data.dropWhile (fun c => c.toNat ≤ 32)).filter
    (fun c => !(c = Char.ofNat 9 || c = Char.ofNat 13 || c = Char.ofNat 10))
  let (scheme, l1) :=
    match splitSchemeGo [] l0 with
    | some (s, rest) => (toLowerStr (String.mk s), rest)
    | none => ("", l0)
  let (netloc, l2) :=
    match l1 with
    | '/' :: '/' :: rest => takeNetloc rest
    | _ => ([], l1)
  if ((netloc.contains '[' && !(netloc.contains ']')) ||
      (netloc.contains ']' && !(netloc.contains '['))) then
    throw ()
  else
    let (l3, fragment) :=
      match splitFirstCh '#' l2 with
      | some (a, b) => (a, b)
      | none => (l2, [])
    let (path, query) :=
      match splitFirstCh '?' l3 with
      | some (a, b) => (a, b)
      | none => (l3, [])
    pure ⟨scheme, String.mk netloc, String.mk path, String.mk query, String.mk fragment⟩

/-- `urllib.parse.urlunsplit`. -/
def urlunsplitPy (p : SplitUrl) : String :=
  let url := p.path
  let url :=
    if p.netloc ≠ "" || url.data.take 2 = ['/', '/'] then
      let url := if url ≠ "" && url.data.take 1 ≠ ['/'] then "/" ++ url else url
      "//" ++ p.netloc ++ url
    else url
  let url := if p.scheme ≠ "" then p.scheme ++ ":" ++ url else url
  let url := if p.query ≠ "" then url ++ "?" ++ p.query else url
  if p.fragment ≠ "" then url ++ "#" ++ p.fragment else url

/-- `str.rstrip("/")`. -/
def rstripSlash (s : String) : String :=
  String.mk ((s.data.reverse.dropWhile (fun c => c = '/')).reverse)

/-- The path step of `_canon_url`: drop one trailing slash, except for the
root path. -/
def canonPath (p : String) : String :=
  if p.data.getLast? = some '/' && p.data.length > 1 then String.mk p.data.dropLast
  else p

/-- The query step of `_canon_url`: when non-empty, parse, sort by
`(name, value)`, and re-encode. -/
def canonQuery (q : String) : String :=
  if q ≠ "" then urlencodePy (sortPairsPy (parse_qsl q)) else q

/-- `utils/state.py` lines 32-54, `_canon_url`: NFKC-normalize and strip the
raw text; lowercase scheme and netloc; drop one trailing slash of a non-root
path; parse, sort and re-encode the query; drop the fragment; on a
`urlsplit` error fall back to the trimmed text with trailing slashes removed. -/
def canon_url (u : String) : String :=
  let u := nfkcStr (pyStrip u)
  if u = "" then ""
  else
    match urlsplitE u with
    | .error _ => rstripSlash u
    | .ok parts =>
      urlunsplitPy
        ⟨toLowerStr parts.scheme, toLowerStr parts.netloc, canonPath parts.path,
         canonQuery parts.query, ""⟩

/-- `utils/state.py` lines 56-58, `_search_key`: SHA-1 hex of
`"{site_id}||{canon_url(url)}"`. -/
def search_key (site_id url : String) : String :=
  sha1Hex (site_id ++ "||" ++ canon_url url)

/-- `utils/state.py` lines 60-61, `state_path`: the storage file name
`<search_key>.json`.  The enclosing directory (`state_dir()`) is derived from
environment variables and is constant within a run, so it is omitted from the
key; two calls collide on disk exactly when they collide here. -/
def state_path (site_id url : String) : String :=
  search_key site_id url ++ ".json"


/-! ## The data model (`utils/state.py`, `orchestrator.py`)

A scraped record, as consumed by the selection: `r["trainer_id"]` raises
`KeyError` when absent, so the id field is an `Option`; `r.get("white_list",
[])` defaults to the empty list.  In the sources ids may arrive as non-string
JSON scalars and are passed through `str(...)`; the values exercised here are
strings, on which `str` is the identity, so the field is modeled as an
optional string.  The remaining record fields (other tag lists, counts,
profile URL) never flow into the selection or the state and are omitted. -/
structure Record where
  trainer_id : Option String
  white_list : Option (List String)
deriving DecidableEq, Repr

/-- The persisted per-search state (`utils/state.py` lines 85-94), with the
`dict.get` defaults of the consuming code already applied to the fields.
`digests` is an insertion-ordered association list, like a CPython dict. -/
structure SearchState where
  version : Nat
  site_id : String
  search_url : String
  seeded : Bool
  digests : List (String × String)
  window_limit : Nat
  created_at : String
  updated_at : Option String
deriving DecidableEq, Repr

/-- The selection options after `opts.get("detect_updates", True)` and
`int(opts.get("per_run_max", 50))` (`orchestrator.py` lines 17-18); the
configured integer is a non-negative count. -/
structure Opts where
  detect_updates : Bool
  per_run_max : Nat
deriving DecidableEq, Repr

/-- Association-list lookup (`dict.get(k)` returning `None` when absent). -/
def alook {A : Type} (k : String) : List (String × A) → Option A
  | [] => none
  | (k1, v) :: t => if k1 = k then some v else alook k t

/-- `d[k] = v` on a CPython dict: an existing key keeps its position, a new
key is appended. -/
def dictInsert {A : Type} (k : String) (v : A) : List (String × A) → List (String × A)
  | [] => [(k, v)]
  | (k1, v1) :: t => if k1 = k then (k, v) :: t else (k1, v1) :: dictInsert k v t

/-- Python `l[-limit:]` for a non-negative `limit`: the last `limit` elements,
except that `l[-0:]` is the whole list. -/
def takeLastPy {A : Type} (limit : Nat) (l : List A) : List A :=
  if limit = 0 then l else l.drop (l.length - limit)

/-- `utils/state.py` lines 106-111, `trim_window`: when the digest table
exceeds `window_limit`, keep only the lexicographically-last `window_limit`
ids (in sorted order, as the rebuilding dict comprehension iterates
`keep_ids`). -/
def trim_window (st : SearchState) : SearchState :=
  let limit := st.window_limit
  let d := st.digests
  if d.length ≤ limit then st
  else
    let keep_ids := takeLastPy limit (sortedPy (d.map Prod.fst))
    let d1 := keep_ids.foldr
      (fun k acc =>
        match alook k d with
        | some v => (k, v) :: acc
        | none => acc) []
    { st with digests := d1 }

/-- One step of the seeding loop (`utils/state.py` lines 121-126): skip a
record whose `str(r.get("trainer_id", "")).strip()` is empty, otherwise
insert its fingerprint under the stripped id. -/
def seedStep (d : List (String × String)) (r : Record) : List (String × String) :=
  let fid := pyStrip (r.trainer_id.getD "")
  if fid = "" then d
  else dictInsert fid (whites_fingerprint (r.white_list.getD [])) d

/-- `utils/state.py` lines 113-127, `seed_from_records`: no-op when already
seeded; otherwise insert a digest for every record whose
`str(r.get("trainer_id", "")).strip()` is non-empty and set `seeded`. -/
def seed_from_records (state : SearchState) (records : List Record) : SearchState :=
  if state.seeded then state
  else
    { state with digests := records.foldl seedStep state.digests, seeded := true }

/-- The modeled exceptions: `KeyError` from `r["trainer_id"]` and
`json.JSONDecodeError` from `json.load` on a malformed state file. -/
inductive Err where
  | keyError : Err
  | jsonError : Err
deriving DecidableEq, Repr

/-- Decidable equality for `Except` results, by constructor. -/
def exceptDecEq {E A : Type} [DecidableEq E] [DecidableEq A] : DecidableEq (Except E A)
  | .error e1, .error e2 =>
    match decEq e1 e2 with
    | isTrue h => isTrue (congrArg Except.error h)
    | isFalse h => isFalse (fun hc => h (Except.error.inj hc))
  | .error _, .ok _ => isFalse (fun hc => Except.noConfusion hc)
  | .ok _, .error _ => isFalse (fun hc => Except.noConfusion hc)
  | .ok a1, .ok a2 =>
    match decEq a1 a2 with
    | isTrue h => isTrue (congrArg Except.ok h)
    | isFalse h => isFalse (fun hc => h (Except.ok.inj hc))

instance {E A : Type} [DecidableEq E] [DecidableEq A] : DecidableEq (Except E A) :=
  exceptDecEq

/-- The change-detection loop of `orchestrator.py` lines 33-40: `digests` is
the mutable dict, `cap` is `per_run_max`, `outRev` the reversed emission list.
A record whose stored digest differs (or is absent) is emitted and its digest
updated immediately; the loop breaks once `len(out) >= per_run_max`.  A
record without `trainer_id` raises `KeyError`. -/
def detectGo (digests : List (String × String)) (cap : Nat) (outRev : List Record) :
    List Record → Except Err (List Record × List (String × String))
  | [] => .ok (outRev.reverse, digests)
  | r :: rs =>
    match r.trainer_id with
    | none => .error .keyError
    | some fid =>
      let fp := whites_fingerprint (r.white_list.getD [])
      if alook fid digests = some fp then detectGo digests cap outRev rs
      else
        let out1 := r :: outRev
        let d1 := dictInsert fid fp digests
        if cap ≤ out1.length then .ok (out1.reverse, d1)
        else detectGo d1 cap out1 rs

/-! ## The state store on disk

A persisted state file either parses back to a `SearchState` or is malformed
(`json.load` raises).  The store maps file names (`state_path`) to contents;
`load`/`save` follow `utils/state.py` lines 82-104.  The atomic
temp-file-and-rename discipline of `save` collapses, in this crash-free
model, to replacing the entry wholesale. -/
inductive FileContent where
  | good : SearchState → FileContent
  | bad : FileContent
deriving DecidableEq, Repr

/-- The state directory: file name to content. -/
def Store : Type := List (String × FileContent)

instance : DecidableEq Store := fun a b => List.hasDecEq a b

/-- The freshly initialized state returned by `load` when no backing file
exists (`utils/state.py` lines 85-94); `now` stands for
`time.strftime(..., time.gmtime())`. -/
def freshState (site_id url now : String) : SearchState :=
  { version := 1, site_id := site_id, search_url := canon_url url, seeded := false,
    digests := [], window_limit := 2000, created_at := now, updated_at := none }

/-- `utils/state.py` lines 82-96, `load`: missing file gives a fresh
unpersisted state; a malformed file raises. -/
def load (site_id url : String) (now : String) (store : Store) :
    Except Err SearchState :=
  match alook (state_path site_id url) store with
  | none => .ok (freshState site_id url now)
  | some (.good st) => .ok st
  | some .bad => .error .jsonError

/-- `utils/state.py` lines 98-104, `save`: stamp `updated_at` and atomically
replace the backing file. -/
def save (site_id url : String) (st : SearchState) (now : String) (store : Store) :
    Store :=
  dictInsert (state_path site_id url) (.good { st with updated_at := some now }) store

/-- `orchestrator.py` lines 14-45, `filter_new_or_changed`: load the state;
seed-and-save on the first run; in firehose mode return a prefix of the batch
without touching state; otherwise run change detection, trim and save. -/
def filter_new_or_changed (site_id url : String) (opts : Opts)
    (records : List Record) (now : String) (store : Store) :
    Except Err (List Record × Store) := do
  let state ← load site_id url now store
  if !state.seeded then
    let st1 := trim_window (seed_from_records state records)
    .ok ([], save site_id url st1 now store)
  else if !opts.detect_updates then
    .ok (records.take opts.per_run_max, store)
  else do
    let (out, d1) ← detectGo state.digests opts.per_run_max [] records
    let st1 := trim_window { state with digests := d1 }
    .ok (out, save site_id url st1 now store)

/-- One configured search of a site (`orchestrator.py` lines 57-59):
`search["url"]` and `search.get("name", "")`. -/
structure Search where
  name : String
  url : String
deriving DecidableEq, Repr

/-- `orchestrator.py` lines 57-86, the per-site search loop of `run`.  The
scraper is the external producer (`site_mod.scrape`), modeled as a function
from the search URL to the record batch.  An empty batch skips the search.
Otherwise the selection-and-persist cycle runs twice: first keyed by the raw
search URL, then keyed by `f"{url}||search={name}"`, and only the second
call's emissions are dispatched (the posting loop and the debug `load`s do
not mutate the store; formatting and delivery are the external consumer, so
dispatched records are collected as a list).  An uncaught exception stops the
run, returning the store as already persisted. -/
def runSearches (site_id : String) (opts : Opts) (scrape : String → List Record)
    (now : String) (store : Store) :
    List Search → Store × List Record × Option Err
  | [] => (store, [], none)
  | sr :: rest =>
    let records := scrape sr.url
    if records = [] then runSearches site_id opts scrape now store rest
    else
      match filter_new_or_changed site_id sr.url opts records now store with
      | .error e => (store, [], some e)
      | .ok (_, store1) =>
        match filter_new_or_changed site_id (sr.url ++ "||search=" ++ sr.name)
            opts records now store1 with
        | .error e => (store1, [], some e)
        | .ok (toPost, store2) =>
          let res := runSearches site_id opts scrape now store2 rest
          (res.1, toPost ++ res.2.1, res.2.2)


/-! ## Result extractors (used to state concrete facts about run results) -/

/-- The parsed state stored for `(site, url)`, when present and well-formed. -/
def stateAt (site url : String) (store : Store) : Option SearchState :=
  match alook (state_path site url) store with
  | some (.good st) => some st
  | _ => none

/-- The emissions of a selection result. -/
def resEmits (r : Except Err (List Record × Store)) : Option (List Record) :=
  match r with
  | .ok (out, _) => some out
  | .error _ => none

/-- The store of a selection result. -/
def resStore (r : Except Err (List Record × Store)) : Option Store :=
  match r with
  | .ok (_, s) => some s
  | .error _ => none

/-- The digest table persisted for `(site, url)` after a selection result. -/
def digestsAt (site url : String) (r : Except Err (List Record × Store)) :
    Option (List (String × String)) :=
  match resStore r with
  | some s => (stateAt site url s).map (fun st => st.digests)
  | none => none

/-- The fingerprint computed for a record inside the selection loop and the
seeder: `whites_fingerprint(r.get("white_list", []))`. -/
def recFp (r : Record) : String :=
  whites_fingerprint (r.white_list.getD [])

/-- The seeding id of a record: `str(r.get("trainer_id", "")).strip()`. -/
def seedId (r : Record) : String :=
  pyStrip (r.trainer_id.getD "")

/-! Normal-form predicates for the text normalizer (used by the idempotence
development for claim C8). -/

/-- Every character of the string is ASCII (code point below 128).  On this
domain real NFKC is the identity, so the restricted Unicode tables above are
complete for it: no compatibility decomposition, combining class, or
composition pair involves an ASCII character. -/
def allAscii (s : String) : Prop :=
  ∀ c ∈ s.data, c.toNat < 128

/-- A normalization-inert character: no compatibility decomposition, combining
class 0, not one of the explicitly replaced invisibles, and its only
whitespace form is the ASCII space. -/
def inertTok (c : Char) : Prop :=
  kDecomp c = none ∧ cccM c = 0 ∧ c ≠ chZwsp ∧ c ≠ chBom ∧
  (pyIsSpace c = true → c = ' ')

/-- No two adjacent whitespace characters. -/
def noDoubleSpace (l : List Char) : Prop :=
  l.Chain' (fun a b => ¬(pyIsSpace a = true ∧ pyIsSpace b = true))

/-- No whitespace character immediately followed by a `p`-character. -/
def noSpaceThen (p : Char → Bool) (l : List Char) : Prop :=
  l.Chain' (fun a b => ¬(pyIsSpace a = true ∧ p b = true))

/-- No `p`-character immediately followed by a whitespace character. -/
def noThenSpace (p : Char → Bool) (l : List Char) : Prop :=
  l.Chain' (fun a b => ¬(p a = true ∧ pyIsSpace b = true))

/-- The first character, if any, is not whitespace. -/
def headNotSpace : List Char → Prop
  | [] => True
  | c :: _ => pyIsSpace c = false

/-- The last character, if any, is not whitespace. -/
def lastNotSpace (l : List Char) : Prop :=
  headNotSpace l.reverse

/-- The normal form reached by `_clean_token`: inert characters, collapsed
and trimmed whitespace, and tightened punctuation spacing. -/
def tokNorm (l : List Char) : Prop :=
  (∀ c ∈ l, inertTok c) ∧ noDoubleSpace l ∧ headNotSpace l ∧ lastNotSpace l ∧
  noSpaceThen (fun c => c = ',') l ∧ noSpaceThen closeTok l ∧ noThenSpace openTok l

/-! ## Concrete instances used by counterexamples and witnesses -/

/-- A sample search URL. -/
def urlEx : String := "https://x.test/s?a=1"

/-- A seeded state with an empty digest table for the sample URL. -/
def stSeededEmpty : SearchState :=
  { version := 1, site_id := "site", search_url := canon_url urlEx, seeded := true,
    digests := [], window_limit := 2000, created_at := "t0", updated_at := none }

/-- A store holding `stSeededEmpty` under the sample URL's state path. -/
def storeSeededEmpty : Store :=
  [(state_path "site" urlEx, .good stSeededEmpty)]

/-- A seeded state that already tracks id "1" with the fingerprint of `["X"]`. -/
def stSeededX : SearchState :=
  { version := 1, site_id := "site", search_url := canon_url urlEx, seeded := true,
    digests := [("1", whites_fingerprint ["X"])], window_limit := 2000,
    created_at := "t0", updated_at := none }

/-- A store holding `stSeededX` under the sample URL's state path. -/
def storeSeededX : Store :=
  [(state_path "site" urlEx, .good stSeededX)]

/-- A record with a fresh id. -/
def recZ : Record := { trainer_id := some "9", white_list := some ["Z"] }

/-- Another record with a fresh id. -/
def recW : Record := { trainer_id := some "7", white_list := some ["W"] }

/-- A malformed record: no `trainer_id` key. -/
def recNoId : Record := { trainer_id := none, white_list := some ["W"] }

/-- A record whose id is non-empty but whitespace-only. -/
def recSpaceId : Record := { trainer_id := some " ", white_list := some ["X"] }

/-- Record id "1" with tags `["X"]`. -/
def rec1X : Record := { trainer_id := some "1", white_list := some ["X"] }

/-- Record id "1" with tags `["Y"]`. -/
def rec1Y : Record := { trainer_id := some "1", white_list := some ["Y"] }

/-- Options with change detection on and `per_run_max = 50` (the defaults). -/
def optsD : Opts := { detect_updates := true, per_run_max := 50 }

/-- Options with change detection on and `per_run_max = 2`. -/
def opts2 : Opts := { detect_updates := true, per_run_max := 2 }

/-- Options with change detection on and `per_run_max = 0`. -/
def opts0 : Opts := { detect_updates := true, per_run_max := 0 }

/-- The sample search named "a" over the sample URL. -/
def searchA : Search := { name := "a", url := "https://x.test/s?a=1" }

/-- A second sample search with a different URL. -/
def searchB : Search := { name := "b", url := "https://x.test/s?b=1" }

/-- The sample search named "main" over the sample URL. -/
def searchMain : Search := { name := "main", url := "https://x.test/s?a=1" }

/-- A scraper stub returning one record for every search URL (the scraper is
an external collaborator; the run driver only consumes its output). -/
def scrapeZ : String → List Record := fun _ => [recZ]

/-- A store whose only file, for the sample URL, is malformed. -/
def storeBadA : Store := [(state_path "site" urlEx, .bad)]

/-! ## Helper lemmas: association lists, sorting, strings -/

set_option maxRecDepth 100000

theorem charToNat_inj {a b : Char} (h : a.toNat = b.toNat) : a = b :=
  Char.eq_of_val_eq (UInt32.toNat.inj h)

theorem alook_dictInsert_self {A : Type} (k : String) (v : A) (d : List (String × A)) :
    alook k (dictInsert k v d) = some v := by
  induction d with
  | nil => simp [dictInsert, alook]
  | cons p t ih =>
    by_cases h : p.1 = k
    · simp [dictInsert, h, alook]
    · simp [dictInsert, h, alook, ih]

theorem alook_dictInsert_ne {A : Type} (k k1 : String) (v : A) (d : List (String × A))
    (h : k1 ≠ k) : alook k1 (dictInsert k v d) = alook k1 d := by
  induction d with
  | nil => simp [dictInsert, alook, Ne.symm h]
  | cons p t ih =>
    by_cases hp : p.1 = k
    · subst hp
      simp [dictInsert, alook, h, Ne.symm h]
    · simp [dictInsert, hp, alook, ih]

theorem length_dictInsert_le {A : Type} (k : String) (v : A) (d : List (String × A)) :
    (dictInsert k v d).length ≤ d.length + 1 := by
  induction d with
  | nil => simp [dictInsert]
  | cons p t ih =>
    by_cases hp : p.1 = k
    · simp [dictInsert, hp]
    · simp only [dictInsert, hp, if_false, List.length_cons]
      omega

theorem alook_isSome_of_mem {A : Type} {k : String} {d : List (String × A)}
    (h : k ∈ d.map Prod.fst) : (alook k d).isSome := by
  induction d with
  | nil => simp at h
  | cons p t ih =>
    by_cases hp : p.1 = k
    · simp [alook, hp]
    · simp only [List.map_cons, List.mem_cons] at h
      rcases h with h | h
    
      · exact absurd h.symm hp
      · simp [alook, hp, ih h]

theorem alook_mem_of_isSome {A : Type} {k : String} {d : List (String × A)}
    (h : (alook k d).isSome) : k ∈ d.map Prod.fst := by
  induction d with
  | nil => simp [alook] at h
  | cons p t ih =>
    by_cases hp : p.1 = k
    · simp [hp]
    · simp only [alook, hp, if_false] at h
      simp [ih h]

/-! Properties of the code-point lexicographic order and `sortedPy`. -/

theorem lexLt_irrefl (l : List Char) : lexLt l l = false := by
  induction l with
  | nil => rfl
  | cons a t ih => simp [lexLt, ih]

theorem lexLt_asymm : ∀ {x y : List Char}, lexLt x y = true → lexLt y x = false
  | [], [], h => by simp [lexLt] at h
  | [], _ :: _, _ => rfl
  | _ :: _, [], h => by simp [lexLt] at h
  | a :: as1, b :: bs1, h => by
    by_cases hab : a.toNat < b.toNat
    · have hba : ¬ b.toNat < a.toNat := by omega
      simp [lexLt, hba, hab]
    · by_cases hba : b.toNat < a.toNat
      · simp [lexLt, hab, hba] at h
      · simp only [lexLt, if_neg hab, if_neg hba] at h
        simp only [lexLt, if_neg hab, if_neg hba]
        exact lexLt_asymm h

theorem lexLt_trans : ∀ {x y z : List Char},
    lexLt x y = true → lexLt y z = true → lexLt x z = true
  | [], _, _ :: _, _, _ => rfl
  | [], [], [], h1, _ => by simp [lexLt] at h1
  | [], _ :: _, [], _, h2 => by simp [lexLt] at h2
  | _ :: _, [], _, h1, _ => by simp [lexLt] at h1
  | _ :: _, _ :: _, [], _, h2 => by simp [lexLt] at h2
  | a :: as1, b :: bs1, c :: cs1, h1, h2 => by
    by_cases hab : a.toNat < b.toNat <;> by_cases hbc : b.toNat < c.toNat
    · have hac : a.toNat < c.toNat := by omega
      simp [lexLt, hac]
    · by_cases hcb : c.toNat < b.toNat
      · simp [lexLt, hcb, hbc] at h2
      · have hac : a.toNat < c.toNat := by omega
        simp [lexLt, hac]
    · by_cases hba : b.toNat < a.toNat
      · simp [lexLt, hab, hba] at h1
      · have hac : a.toNat < c.toNat := by omega
        simp [lexLt, hac]
    · by_cases hba : b.toNat < a.toNat
      · simp [lexLt, hab, hba] at h1
      · by_cases hcb : c.toNat < b.toNat
        · simp [lexLt, hbc, hcb] at h2
        · have hac1 : ¬ a.toNat < c.toNat := by omega
          have hac2 : ¬ c.toNat < a.toNat := by omega
          simp only [lexLt, if_neg hab, if_neg hba] at h1
          simp only [lexLt, if_neg hbc, if_neg hcb] at h2
          simp only [lexLt, if_neg hac1, if_neg hac2]
          exact lexLt_trans h1 h2

theorem lexLt_total_eq : ∀ {x y : List Char},
    lexLt x y = false → lexLt y x = false → x = y
  | [], [], _, _ => rfl
  | [], _ :: _, h1, _ => by simp [lexLt] at h1
  | _ :: _, [], _, h2 => by simp [lexLt] at h2
  | a :: as1, b :: bs1, h1, h2 => by
    by_cases hab : a.toNat < b.toNat
    · simp [lexLt, hab] at h1
    · by_cases hba : b.toNat < a.toNat
      · simp [lexLt, hba] at h2
      · have hEq : a = b := charToNat_inj (by omega)
        simp only [lexLt, if_neg hab, if_neg hba] at h1
        simp only [lexLt, if_neg hba, if_neg hab] at h2
        rw [hEq, lexLt_total_eq h1 h2]

instance instStrLeTotal : IsTotal String (fun a b => strLe a b = true) := by
  constructor
  intro a b
  by_cases h : lexLt b.data a.data = true
  · right
    simp [strLe, lexLt_asymm h]
  · left
    simp only [strLe]
    simp only [Bool.not_eq_true] at h
    simp [h]

instance instStrLeTrans : IsTrans String (fun a b => strLe a b = true) := by
  constructor
  intro a b c h1 h2
  simp only [strLe, Bool.not_eq_true'] at h1 h2 ⊢
  by_cases hca : lexLt c.data a.data = true
  · exfalso
    by_cases hab : lexLt a.data b.data = true
    · have hcb : lexLt c.data b.data = true := lexLt_trans hca hab
      rw [h2] at hcb
      cases hcb
    · have hab2 : a.data = b.data :=
        lexLt_total_eq (by simpa using hab) h1
      rw [hab2] at hca
      rw [h2] at hca
      cases hca
  · simpa using hca

instance instStrLeAntisymm : IsAntisymm String (fun a b => strLe a b = true) := by
  constructor
  intro a b h1 h2
  simp only [strLe, Bool.not_eq_true'] at h1 h2
  have hd : a.data = b.data := lexLt_total_eq h2 h1
  cases a
  cases b
  simp_all

theorem sortedPy_eq_of_perm {l1 l2 : List String} (h : l1.Perm l2) :
    sortedPy l1 = sortedPy l2 := by
  apply List.eq_of_perm_of_sorted
    (r := fun a b => strLe a b = true)
  · exact (List.perm_insertionSort _ l1).trans (h.trans (List.perm_insertionSort _ l2).symm)
  · exact List.sorted_insertionSort _ l1
  · exact List.sorted_insertionSort _ l2

theorem sortedPy_perm (l : List String) : (sortedPy l).Perm l :=
  List.perm_insertionSort _ l

/-! Trim-window helper lemmas. -/

theorem trim_window_id (st : SearchState) (h : st.digests.length ≤ st.window_limit) :
    trim_window st = st := by
  unfold trim_window
  simp [h]

theorem rebuild_spec (d : List (String × String)) :
    ∀ ks : List String, (∀ k ∈ ks, (alook k d).isSome) →
    (ks.foldr (fun k acc =>
        match alook k d with
        | some v => (k, v) :: acc
        | none => acc) []).map Prod.fst = ks ∧
    ∀ p ∈ ks.foldr (fun k acc =>
        match alook k d with
        | some v => (k, v) :: acc
        | none => acc) [], alook p.1 d = some p.2 := by
  intro ks
  induction ks with
  | nil => simp
  | cons k t ih =>
    intro h
    have hk := h k (by simp)
    rcases hv : alook k d with _ | v
    · rw [hv] at hk
      simp at hk
    · have iht := ih (fun x hx => h x (by simp [hx]))
      constructor
      · simp only [List.foldr_cons, hv, List.map_cons, iht.1]
      · intro p hp
        simp only [List.foldr_cons, hv, List.mem_cons] at hp
        rcases hp with rfl | hp
        · exact hv
        · exact iht.2 p hp

/-! ## Claim C9 — `trim_window` -/

/-- Claim C9, counterexample.  With `window_limit = 0` and one digest entry,
the digest map has more entries than the window limit, yet `trim_window`
keeps the entry (Python's `sorted(d.keys())[-0:]` is the whole key list), so
it does not leave exactly `window_limit` entries. -/
theorem C9_trim_window_counterexample :
    (trim_window
      { version := 1, site_id := "site", search_url := "u", seeded := true,
        digests := [("a", "x")], window_limit := 0, created_at := "t",
        updated_at := none }).digests = [("a", "x")] := by
  decide

/-- Claim C9 (amended): for every state with `window_limit ≥ 1` whose digest
map has more entries than `window_limit`, `trim_window` leaves exactly
`window_limit` entries, namely the lexicographically-last ids of the sorted
key list, each keeping its stored fingerprint; `trim_window` is a pure
function and idempotent, and a state with at most `window_limit` entries is
left unchanged. -/
theorem C9_trim_window :
    ∀ st : SearchState, 1 ≤ st.window_limit →
      (st.window_limit < st.digests.length →
        (trim_window st).digests.length = st.window_limit ∧
        (trim_window st).digests.map Prod.fst =
          takeLastPy st.window_limit (sortedPy (st.digests.map Prod.fst)) ∧
        (∀ p ∈ (trim_window st).digests, alook p.1 st.digests = some p.2)) ∧
      trim_window (trim_window st) = trim_window st ∧
      (st.digests.length ≤ st.window_limit → trim_window st = st) := by
  intro st hlim
  have hmain : st.window_limit < st.digests.length →
      (trim_window st).digests.length = st.window_limit ∧
      (trim_window st).digests.map Prod.fst =
        takeLastPy st.window_limit (sortedPy (st.digests.map Prod.fst)) ∧
      (∀ p ∈ (trim_window st).digests, alook p.1 st.digests = some p.2) := by
    intro hgt
    have hnotle : ¬ st.digests.length ≤ st.window_limit := by omega
    have hsortlen : (sortedPy (st.digests.map Prod.fst)).length = st.digests.length := by
      rw [(sortedPy_perm _).length_eq, List.length_map]
    have hkeeplen :
        (takeLastPy st.window_limit (sortedPy (st.digests.map Prod.fst))).length =
          st.window_limit := by
      unfold takeLastPy
      rw [if_neg (by omega)]
      rw [List.length_drop]
      omega
    have hmem : ∀ k ∈ takeLastPy st.window_limit (sortedPy (st.digests.map Prod.fst)),
        (alook k st.digests).isSome := by
      intro k hk
      apply alook_isSome_of_mem
      have hk2 : k ∈ sortedPy (st.digests.map Prod.fst) := by
        unfold takeLastPy at hk
        rw [if_neg (by omega)] at hk
        exact List.mem_of_mem_drop hk
      exact (sortedPy_perm _).mem_iff.mp hk2
    have hspec := rebuild_spec st.digests
      (takeLastPy st.window_limit (sortedPy (st.digests.map Prod.fst))) hmem
    have htrim : (trim_window st).digests =
        (takeLastPy st.window_limit (sortedPy (st.digests.map Prod.fst))).foldr
          (fun k acc =>
            match alook k st.digests with
            | some v => (k, v) :: acc
            | none => acc) [] := by
      unfold trim_window
      rw [if_neg hnotle]
    refine ⟨?_, ?_, ?_⟩
    · rw [htrim]
      have := congrArg List.length hspec.1
      rw [List.length_map] at this
      rw [this, hkeeplen]
    · rw [htrim]
      exact hspec.1
    · intro p hp
      rw [htrim] at hp
      exact hspec.2 p hp
  refine ⟨hmain, ?_, trim_window_id st⟩
  by_cases hle : st.digests.length ≤ st.window_limit
  · rw [trim_window_id st hle, trim_window_id st hle]
  · have h1 := hmain (by omega)
    apply trim_window_id
    have hwl : (trim_window st).window_limit = st.window_limit := by
      unfold trim_window
      rw [if_neg hle]
    rw [h1.1, hwl]

/-- Claim C9, witness: a concrete five-entry digest table with
`window_limit = 3` trims to exactly the three lexicographically-last ids with
their fingerprints kept, idempotently. -/
theorem C9_trim_window_witness :
    (1 ≤ (3 : Nat)) ∧
    ((trim_window
      { version := 1, site_id := "site", search_url := "u", seeded := true,
        digests := [("d", "4"), ("b", "2"), ("e", "5"), ("a", "1"), ("c", "3")],
        window_limit := 3, created_at := "t", updated_at := none }).digests.length = 3 ∧
      (trim_window
      { version := 1, site_id := "site", search_url := "u", seeded := true,
        digests := [("d", "4"), ("b", "2"), ("e", "5"), ("a", "1"), ("c", "3")],
        window_limit := 3, created_at := "t", updated_at := none }).digests.map Prod.fst =
        takeLastPy 3 (sortedPy ["d", "b", "e", "a", "c"])) := by
  have h := C9_trim_window
    { version := 1, site_id := "site", search_url := "u", seeded := true,
      digests := [("d", "4"), ("b", "2"), ("e", "5"), ("a", "1"), ("c", "3")],
      window_limit := 3, created_at := "t", updated_at := none }
    (by decide)
  have h2 := (h.1 (by decide))
  exact ⟨by decide, h2.1, h2.2.1⟩

/-! ## Claim C7 — fingerprint multiset invariance -/

/-- Claim C7: two tag lists whose cleaned tokens (normalized, with
empty-normalizing tokens dropped) form the same multiset get the same
fingerprint; in particular `fingerprint(["A","B"]) = fingerprint(["B","A"])`,
and the empty list fingerprints to the stable digest of the empty joined
string rather than failing. -/
theorem C7_fingerprint_multiset :
    (∀ l1 l2 : List String, (cleanTokens l1).Perm (cleanTokens l2) →
      whites_fingerprint l1 = whites_fingerprint l2) ∧
    whites_fingerprint ["A", "B"] = whites_fingerprint ["B", "A"] ∧
    whites_fingerprint [] = sha1Hex "" := by
  refine ⟨?_, by decide, by decide⟩
  intro l1 l2 hperm
  unfold whites_fingerprint
  rw [sortedPy_eq_of_perm hperm]

/-- Claim C7, witness: the cleaned tokens of `["B", "A"]` and `["A", "B"]`
are permutations of each other and the fingerprints coincide. -/
theorem C7_fingerprint_multiset_witness :
    (cleanTokens ["B", "A"]).Perm (cleanTokens ["A", "B"]) ∧
    whites_fingerprint ["B", "A"] = whites_fingerprint ["A", "B"] := by
  have hperm : (cleanTokens ["B", "A"]).Perm (cleanTokens ["A", "B"]) := by
    have h1 : cleanTokens ["B", "A"] = ["B", "A"] := by decide
    have h2 : cleanTokens ["A", "B"] = ["A", "B"] := by decide
    rw [h1, h2]
    exact List.Perm.swap "A" "B" []
  exact ⟨hperm, C7_fingerprint_multiset.1 ["B", "A"] ["A", "B"] hperm⟩

/-! ## Lemmas about the change-detection loop (`detectGo`) -/

theorem detectGo_nil (d : List (String × String)) (cap : Nat) (outRev : List Record) :
    detectGo d cap outRev [] = .ok (outRev.reverse, d) := rfl

theorem detectGo_mem {rs : List Record} :
    ∀ {d : List (String × String)} {cap : Nat} {outRev out : List Record}
      {dOut : List (String × String)},
      detectGo d cap outRev rs = .ok (out, dOut) →
      ∀ x ∈ out, x ∈ outRev ∨ x ∈ rs := by
  induction rs with
  | nil =>
    intro d cap outRev out dOut h x hx
    rw [detectGo_nil] at h
    cases h
    exact Or.inl (List.mem_reverse.mp hx)
  | cons r rest ih =>
    intro d cap outRev out dOut h x hx
    rcases hid : r.trainer_id with _ | fid
    · simp only [detectGo, hid] at h
      exact Except.noConfusion h
    · simp only [detectGo, hid] at h
      split at h
      · rcases ih h x hx with h1 | h1
        · exact Or.inl h1
        · exact Or.inr (by simp [h1])
      · split at h
        · cases h
          rcases List.mem_cons.mp (List.mem_reverse.mp hx) with h1 | h1
          · exact Or.inr (by simp [h1])
          · exact Or.inl h1
        · rcases ih h x hx with h1 | h1
          · rcases List.mem_cons.mp h1 with h2 | h2
            · exact Or.inr (by simp [h2])
            · exact Or.inl h2
          · exact Or.inr (by simp [h1])

theorem detectGo_frame {rs : List Record} :
    ∀ {d : List (String × String)} {cap : Nat} {outRev out : List Record}
      {dOut : List (String × String)},
      detectGo d cap outRev rs = .ok (out, dOut) →
      ∀ k, (∀ x ∈ rs, x.trainer_id ≠ some k) → alook k dOut = alook k d := by
  induction rs with
  | nil =>
    intro d cap outRev out dOut h k _
    rw [detectGo_nil] at h
    cases h
    rfl
  | cons r rest ih =>
    intro d cap outRev out dOut h k hk
    rcases hid : r.trainer_id with _ | fid
    · simp only [detectGo, hid] at h
      exact Except.noConfusion h
    · have hkr : k ≠ fid := by
        intro hc
        exact hk r (by simp) (by rw [hid, hc])
      simp only [detectGo, hid] at h
      split at h
      · exact ih h k (fun x hx => hk x (by simp [hx]))
      · split at h
        · cases h
          exact alook_dictInsert_ne fid k _ d hkr
        · rw [ih h k (fun x hx => hk x (by simp [hx]))]
          exact alook_dictInsert_ne fid k _ d hkr

theorem detectGo_ok {rs : List Record} :
    ∀ {d : List (String × String)} {cap : Nat} {outRev : List Record},
      (∀ x ∈ rs, x.trainer_id.isSome) →
      ∃ out dOut, detectGo d cap outRev rs = .ok (out, dOut) := by
  induction rs with
  | nil =>
    intro d cap outRev _
    exact ⟨outRev.reverse, d, detectGo_nil d cap outRev⟩
  | cons r rest ih =>
    intro d cap outRev hs
    rcases hid : r.trainer_id with _ | fid
    · have := hs r (by simp)
      rw [hid] at this
      cases this
    · have hrest : ∀ x ∈ rest, x.trainer_id.isSome := fun x hx => hs x (by simp [hx])
      simp only [detectGo, hid]
      split
      · exact ih hrest
      · split
        · exact ⟨_, _, rfl⟩
        · exact ih hrest

theorem detectGo_count {rs : List Record} :
    ∀ {d : List (String × String)} {cap : Nat} {outRev out : List Record}
      {dOut : List (String × String)} {r : Record},
      detectGo d cap outRev rs = .ok (out, dOut) →
      (∀ x ∈ rs, x ≠ r) →
      out.count r = outRev.count r := by
  induction rs with
  | nil =>
    intro d cap outRev out dOut r h _
    rw [detectGo_nil] at h
    cases h
    exact List.count_reverse r outRev
  | cons x rest ih =>
    intro d cap outRev out dOut r h hx
    have hxr : x ≠ r := hx x (by simp)
    rcases hid : x.trainer_id with _ | fid
    · simp only [detectGo, hid] at h
      exact Except.noConfusion h
    · simp only [detectGo, hid] at h
      split at h
      · exact ih h (fun y hy => hx y (by simp [hy]))
      · split at h
        · cases h
          rw [List.count_reverse, List.count_cons_of_ne (Ne.symm hxr)]
        · rw [ih h (fun y hy => hx y (by simp [hy]))]
          rw [List.count_cons_of_ne (Ne.symm hxr)]

theorem detectGo_len {rs : List Record} :
    ∀ {d : List (String × String)} {cap : Nat} {outRev out : List Record}
      {dOut : List (String × String)},
      detectGo d cap outRev rs = .ok (out, dOut) →
      dOut.length ≤ d.length + rs.length := by
  induction rs with
  | nil =>
    intro d cap outRev out dOut h
    rw [detectGo_nil] at h
    cases h
    simp
  | cons r rest ih =>
    intro d cap outRev out dOut h
    rcases hid : r.trainer_id with _ | fid
    · simp only [detectGo, hid] at h
      exact Except.noConfusion h
    · simp only [detectGo, hid] at h
      split at h
      · have := ih h
        simp only [List.length_cons]
        omega
      · split at h
        · cases h
          have := length_dictInsert_le fid (whites_fingerprint (r.white_list.getD [])) d
          simp only [List.length_cons]
          omega
        · have h1 := ih h
          have h2 := length_dictInsert_le fid (whites_fingerprint (r.white_list.getD [])) d
          simp only [List.length_cons]
          omega

theorem detectGo_skipA {pre : List Record} :
    ∀ {d : List (String × String)} {cap : Nat} {outRev : List Record}
      {r : Record} {fid : String} {post out : List Record}
      {dOut : List (String × String)},
      r.trainer_id = some fid →
      alook fid d = some (recFp r) →
      (∀ x ∈ pre, x.trainer_id ≠ some fid) →
      (∀ x ∈ post, x.trainer_id ≠ some fid) →
      r ∉ outRev →
      detectGo d cap outRev (pre ++ r :: post) = .ok (out, dOut) →
      out.count r = 0 ∧ alook fid dOut = some (recFp r) := by
  induction pre with
  | nil =>
    intro d cap outRev r fid post out dOut hrid hstore hpre hpost hout h
    simp only [List.nil_append, detectGo, hrid] at h
    rw [if_pos (by rw [hstore]; rfl)] at h
    constructor
    · have hcnt := detectGo_count h
        (fun y hy hc => hpost y hy (by rw [hc, hrid]))
      rw [hcnt]
      exact List.count_eq_zero.mpr hout
    · rw [detectGo_frame h fid
        (fun x hx hc => hpost x hx hc)]
      exact hstore
  | cons x pre1 ih =>
    intro d cap outRev r fid post out dOut hrid hstore hpre hpost hout h
    have hxne : x.trainer_id ≠ some fid := hpre x (by simp)
    rcases hid : x.trainer_id with _ | fx
    · simp only [List.cons_append, detectGo, hid] at h
      exact Except.noConfusion h
    · have hfxne : fid ≠ fx := by
        intro hc
        exact hxne (by rw [hid, hc])
      have hxr : x ≠ r := by
        intro hc
        rw [hc, hrid] at hid
        exact hfxne (by cases hid; rfl)
      simp only [List.cons_append, detectGo, hid] at h
      split at h
      · exact ih hrid hstore (fun y hy => hpre y (by simp [hy])) hpost hout h
      · split at h
        · cases h
          constructor
          · rw [List.count_reverse, List.count_cons_of_ne (Ne.symm hxr)]
            exact List.count_eq_zero.mpr hout
          · rw [alook_dictInsert_ne fx fid _ d hfxne]
            exact hstore
        · have hstore1 : alook fid (dictInsert fx (whites_fingerprint (x.white_list.getD [])) d) =
              some (recFp r) := by
            rw [alook_dictInsert_ne fx fid _ d hfxne]
            exact hstore
          have hout1 : r ∉ x :: outRev := by
            intro hc
            rcases List.mem_cons.mp hc with hc | hc
            · exact hxr hc.symm
            · exact hout hc
          exact ih hrid hstore1 (fun y hy => hpre y (by simp [hy])) hpost hout1 h

theorem detectGo_emitB {pre : List Record} :
    ∀ {d : List (String × String)} {cap : Nat} {outRev : List Record}
      {r : Record} {fid : String} {post out : List Record}
      {dOut : List (String × String)},
      r.trainer_id = some fid →
      alook fid d ≠ some (recFp r) →
      (∀ x ∈ pre, x.trainer_id ≠ some fid) →
      (∀ x ∈ post, x.trainer_id ≠ some fid) →
      r ∉ outRev →
      outRev.length + pre.length < cap →
      detectGo d cap outRev (pre ++ r :: post) = .ok (out, dOut) →
      out.count r = 1 ∧ alook fid dOut = some (recFp r) := by
  induction pre with
  | nil =>
    intro d cap outRev r fid post out dOut hrid hstore hpre hpost hout hcap h
    simp only [List.nil_append, detectGo, hrid] at h
    rw [if_neg (by rw [recFp] at hstore; exact hstore)] at h
    have hself := alook_dictInsert_self fid (whites_fingerprint (r.white_list.getD [])) d
    split at h
    · cases h
      constructor
      · rw [List.count_reverse, List.count_cons_self, List.count_eq_zero.mpr hout]
      · rw [hself]
        rfl
    · constructor
      · have hcnt := detectGo_count h
          (fun y hy hc => hpost y hy (by rw [hc, hrid]))
        rw [hcnt, List.count_cons_self, List.count_eq_zero.mpr hout]
      · rw [detectGo_frame h fid (fun x hx hc => hpost x hx hc), hself]
        rfl
  | cons x pre1 ih =>
    intro d cap outRev r fid post out dOut hrid hstore hpre hpost hout hcap h
    have hxne : x.trainer_id ≠ some fid := hpre x (by simp)
    rcases hid : x.trainer_id with _ | fx
    · simp only [List.cons_append, detectGo, hid] at h
      exact Except.noConfusion h
    · have hfxne : fid ≠ fx := by
        intro hc
        exact hxne (by rw [hid, hc])
      have hxr : x ≠ r := by
        intro hc
        rw [hc, hrid] at hid
        exact hfxne (by cases hid; rfl)
      simp only [List.cons_append, detectGo, hid] at h
      split at h
      · refine ih hrid hstore (fun y hy => hpre y (by simp [hy])) hpost hout ?_ h
        simp only [List.length_cons] at hcap
        omega
      · rw [if_neg (by simp only [List.length_cons, List.length_append] at hcap ⊢; omega)] at h
        have hstore1 : alook fid (dictInsert fx (whites_fingerprint (x.white_list.getD [])) d) ≠
            some (recFp r) := by
          rw [alook_dictInsert_ne fx fid _ d hfxne]
          exact hstore
        have hout1 : r ∉ x :: outRev := by
          intro hc
          rcases List.mem_cons.mp hc with hc | hc
          · exact hxr hc.symm
          · exact hout hc
        refine ih hrid hstore1 (fun y hy => hpre y (by simp [hy])) hpost hout1 ?_ h
        simp only [List.length_cons] at hcap ⊢
        omega

theorem detectGo_keyError {pre : List Record} :
    ∀ {d : List (String × String)} {cap : Nat} {outRev : List Record}
      {rb : Record} {post : List Record},
      rb.trainer_id = none →
      outRev.length + pre.length < cap →
      detectGo d cap outRev (pre ++ rb :: post) = .error .keyError := by
  induction pre with
  | nil =>
    intro d cap outRev rb post hrb _
    simp only [List.nil_append, detectGo, hrb]
  | cons x pre1 ih =>
    intro d cap outRev rb post hrb hcap
    rcases hid : x.trainer_id with _ | fx
    · simp only [List.cons_append, detectGo, hid]
    · simp only [List.cons_append, detectGo, hid]
      split
      · exact ih hrb (by simp only [List.length_cons] at hcap; omega)
      · rw [if_neg (by simp only [List.length_cons] at hcap ⊢; omega)]
        exact ih hrb (by simp only [List.length_cons] at hcap ⊢; omega)

theorem detectGo_allnew {rs : List Record} :
    ∀ {d : List (String × String)} {cap : Nat} {outRev : List Record},
      outRev.length < cap →
      (∀ x ∈ rs, ∀ f, x.trainer_id = some f → alook f d = none) →
      (∀ x ∈ rs, x.trainer_id.isSome) →
      (rs.filterMap (fun x => x.trainer_id)).Nodup →
      ∃ dOut,
        detectGo d cap outRev rs =
          .ok (outRev.reverse ++ rs.take (cap - outRev.length), dOut) ∧
        (∀ x ∈ rs.take (cap - outRev.length), ∀ f, x.trainer_id = some f →
          alook f dOut = some (recFp x)) ∧
        (∀ x ∈ rs.drop (cap - outRev.length), ∀ f, x.trainer_id = some f →
          alook f dOut = none) ∧
        dOut.length ≤ d.length + (cap - outRev.length) := by
  induction rs with
  | nil =>
    intro d cap outRev _ _ _ _
    refine ⟨d, ?_, by simp, by simp, by simp⟩
    rw [detectGo_nil]
    simp
  | cons r rest ih =>
    intro d cap outRev hcap hnew hsome hnd
    rcases hid : r.trainer_id with _ | fid
    · have := hsome r (by simp)
      rw [hid] at this
      cases this
    · have hfid_not : fid ∉ rest.filterMap (fun x => x.trainer_id) := by
        simp only [List.filterMap_cons, hid] at hnd
        exact (List.nodup_cons.mp hnd).1
      have hrestne : ∀ x ∈ rest, x.trainer_id ≠ some fid := by
        intro x hx hc
        exact hfid_not (List.mem_filterMap.mpr ⟨x, hx, hc⟩)
      have hdr : alook fid d = none := hnew r (by simp) fid hid
      have hfp : ¬ alook fid d = some (whites_fingerprint (r.white_list.getD [])) := by
        rw [hdr]
        simp
      simp only [detectGo, hid, if_neg hfp]
      have hn1 : 1 ≤ cap - outRev.length := by omega
      by_cases hbreak : cap ≤ (r :: outRev).length
      · have hcap1 : cap = outRev.length + 1 := by
          simp only [List.length_cons] at hbreak
          omega
        rw [if_pos hbreak]
        refine ⟨dictInsert fid (whites_fingerprint (r.white_list.getD [])) d, ?_, ?_, ?_, ?_⟩
        · have htake : (r :: rest).take (cap - outRev.length) = [r] := by
            rw [hcap1]
            simp
          rw [htake]
          simp
        · intro x hx f hxf
          rw [hcap1] at hx
          simp only [Nat.add_sub_cancel_left, List.take_succ_cons, List.take_zero] at hx
          rcases List.mem_singleton.mp hx with rfl
          rw [hid] at hxf
          cases hxf
          rw [recFp]
          exact alook_dictInsert_self _ _ _
        · intro x hx f hxf
          rw [hcap1] at hx
          simp only [Nat.add_sub_cancel_left, List.drop_succ_cons, List.drop_zero] at hx
          have hne : f ≠ fid := by
            intro hc
            exact hrestne x hx (by rw [hxf, hc])
          rw [alook_dictInsert_ne fid f _ d hne]
          exact hnew x (by simp [hx]) f hxf
        · have := length_dictInsert_le fid (whites_fingerprint (r.white_list.getD [])) d
          omega
      · rw [if_neg hbreak]
        have hnew1 : ∀ x ∈ rest, ∀ f, x.trainer_id = some f →
            alook f (dictInsert fid (whites_fingerprint (r.white_list.getD [])) d) = none := by
          intro x hx f hxf
          have hne : f ≠ fid := by
            intro hc
            exact hrestne x hx (by rw [hxf, hc])
          rw [alook_dictInsert_ne fid f _ d hne]
          exact hnew x (by simp [hx]) f hxf
        have hsome1 : ∀ x ∈ rest, x.trainer_id.isSome := fun x hx => hsome x (by simp [hx])
        have hnd1 : (rest.filterMap (fun x => x.trainer_id)).Nodup := by
          simp only [List.filterMap_cons, hid] at hnd
          exact (List.nodup_cons.mp hnd).2
        have hcap2 : (r :: outRev).length < cap := by
          simp only [List.length_cons]
          simp only [List.length_cons] at hbreak
          omega
        rcases ih hcap2 hnew1 hsome1 hnd1 with ⟨dOut, heq, htake, hdrop, hlen⟩
        have harith : cap - outRev.length = (cap - (r :: outRev).length) + 1 := by
          simp only [List.length_cons]
          omega
        refine ⟨dOut, ?_, ?_, ?_, ?_⟩
        · rw [heq]
          rw [harith, List.take_succ_cons]
          simp
        · intro x hx f hxf
          rw [harith, List.take_succ_cons] at hx
          rcases List.mem_cons.mp hx with rfl | hx
          · rw [hid] at hxf
            cases hxf
            have hframe := detectGo_frame heq fid hrestne
            rw [hframe]
            rw [recFp]
            exact alook_dictInsert_self _ _ _
          · exact htake x hx f hxf
        · intro x hx f hxf
          rw [harith, List.drop_succ_cons] at hx
          exact hdrop x hx f hxf
        · have h2 := length_dictInsert_le fid (whites_fingerprint (r.white_list.getD [])) d
          omega

/-! ## Unfolding lemmas for `filter_new_or_changed` -/

theorem filter_eq_seed (site url : String) (opts : Opts) (records : List Record)
    (now : String) (store : Store) (st : SearchState)
    (hload : load site url now store = .ok st) (hseed : st.seeded = false) :
    filter_new_or_changed site url opts records now store =
      .ok ([], save site url (trim_window (seed_from_records st records)) now store) := by
  unfold filter_new_or_changed
  rw [hload]
  simp [Bind.bind, Except.bind, hseed]

theorem filter_eq_detect (site url : String) (opts : Opts) (records : List Record)
    (now : String) (store : Store) (st : SearchState)
    (hload : load site url now store = .ok st) (hseed : st.seeded = true)
    (hdet : opts.detect_updates = true) :
    filter_new_or_changed site url opts records now store =
      match detectGo st.digests opts.per_run_max [] records with
      | .error e => .error e
      | .ok (out, d1) =>
        .ok (out, save site url (trim_window { st with digests := d1 }) now store) := by
  unfold filter_new_or_changed
  rw [hload]
  simp only [Bind.bind, Except.bind, hseed, hdet, Bool.not_true, Bool.false_eq_true,
    if_false]
  rcases hdg : detectGo st.digests opts.per_run_max [] records with e | p
  · rfl
  · rfl

theorem load_of_good (site url now : String) (store : Store) (st : SearchState)
    (h : alook (state_path site url) store = some (.good st)) :
    load site url now store = .ok st := by
  unfold load
  rw [h]

theorem save_lookup_self (site url : String) (st : SearchState) (now : String)
    (store : Store) :
    alook (state_path site url) (save site url st now store) =
      some (.good { st with updated_at := some now }) := by
  unfold save
  exact alook_dictInsert_self _ _ _

/-! ## Claim C1 — change detection on a seeded state -/

/-- Claim C1: on a seeded state with `detect_updates` on, a record whose id is
tracked with an equal fingerprint is emitted zero times and its digest entry
is left unchanged (a); a record whose stored fingerprint differs or is absent
is emitted exactly once and its digest entry becomes the fingerprint of its
current tag list (b); a later duplicate of the same id in the same batch is
compared against the just-updated digest, so a duplicate with the same new
fingerprint is not emitted again (c).  Each part assumes the batch fits the
digest window and, where emission is asserted, that the record is reached
before the per-run cap; outside the duplicate under scrutiny the batch
carries the record's id only at its own position. -/
theorem C1_change_detection :
    (∀ (site url now : String) (opts : Opts) (store : Store) (st : SearchState)
      (pre post : List Record) (r : Record) (fid : String),
      alook (state_path site url) store = some (.good st) →
      st.seeded = true → opts.detect_updates = true →
      (∀ x ∈ pre ++ r :: post, x.trainer_id.isSome) →
      r.trainer_id = some fid →
      (∀ x ∈ pre, x.trainer_id ≠ some fid) →
      (∀ x ∈ post, x.trainer_id ≠ some fid) →
      alook fid st.digests = some (recFp r) →
      st.digests.length + (pre ++ r :: post).length ≤ st.window_limit →
      ∃ out store1 st1,
        filter_new_or_changed site url opts (pre ++ r :: post) now store =
          .ok (out, store1) ∧
        out.count r = 0 ∧
        alook (state_path site url) store1 = some (.good st1) ∧
        alook fid st1.digests = alook fid st.digests) ∧
    (∀ (site url now : String) (opts : Opts) (store : Store) (st : SearchState)
      (pre post : List Record) (r : Record) (fid : String),
      alook (state_path site url) store = some (.good st) →
      st.seeded = true → opts.detect_updates = true →
      (∀ x ∈ pre ++ r :: post, x.trainer_id.isSome) →
      r.trainer_id = some fid →
      (∀ x ∈ pre, x.trainer_id ≠ some fid) →
      (∀ x ∈ post, x.trainer_id ≠ some fid) →
      alook fid st.digests ≠ some (recFp r) →
      pre.length < opts.per_run_max →
      st.digests.length + (pre ++ r :: post).length ≤ st.window_limit →
      ∃ out store1 st1,
        filter_new_or_changed site url opts (pre ++ r :: post) now store =
          .ok (out, store1) ∧
        out.count r = 1 ∧
        alook (state_path site url) store1 = some (.good st1) ∧
        alook fid st1.digests = some (recFp r)) ∧
    (∀ (site url now : String) (opts : Opts) (store : Store) (st : SearchState)
      (r r2 : Record) (fid : String),
      alook (state_path site url) store = some (.good st) →
      st.seeded = true → opts.detect_updates = true →
      r.trainer_id = some fid → r2.trainer_id = some fid →
      recFp r2 = recFp r →
      alook fid st.digests ≠ some (recFp r) →
      1 ≤ opts.per_run_max →
      st.digests.length + 2 ≤ st.window_limit →
      ∃ store1 st1,
        filter_new_or_changed site url opts [r, r2] now store = .ok ([r], store1) ∧
        alook (state_path site url) store1 = some (.good st1) ∧
        alook fid st1.digests = some (recFp r)) := by
  refine ⟨?_, ?_, ?_⟩
  · intro site url now opts store st pre post r fid hst hseed hdet hids hrid hpre hpost
      hdig hwin
    have hfil := filter_eq_detect site url opts (pre ++ r :: post) now store st
      (load_of_good site url now store st hst) hseed hdet
    rcases @detectGo_ok (pre ++ r :: post) st.digests
      opts.per_run_max [] hids with ⟨out, dOut, hdg⟩
    rcases detectGo_skipA hrid hdig hpre hpost (by simp) hdg with ⟨hcnt, hval⟩
    have hlen := detectGo_len hdg
    have htrim : trim_window { st with digests := dOut } = { st with digests := dOut } := by
      apply trim_window_id
      simp only []
      omega
    refine ⟨out, save site url { st with digests := dOut } now store,
      { st with digests := dOut, updated_at := some now }, ?_, hcnt, ?_, ?_⟩
    · rw [hfil, hdg]
      show Except.ok (out, save site url (trim_window { st with digests := dOut }) now store) = _
      rw [htrim]
    · exact save_lookup_self site url _ now store
    · show alook fid dOut = alook fid st.digests
      rw [hval, hdig]
  · intro site url now opts store st pre post r fid hst hseed hdet hids hrid hpre hpost
      hdig hcap hwin
    have hfil := filter_eq_detect site url opts (pre ++ r :: post) now store st
      (load_of_good site url now store st hst) hseed hdet
    rcases @detectGo_ok (pre ++ r :: post) st.digests
      opts.per_run_max [] hids with ⟨out, dOut, hdg⟩
    rcases detectGo_emitB hrid hdig hpre hpost (by simp) (by simpa using hcap) hdg with
      ⟨hcnt, hval⟩
    have hlen := detectGo_len hdg
    have htrim : trim_window { st with digests := dOut } = { st with digests := dOut } := by
      apply trim_window_id
      simp only []
      omega
    refine ⟨out, save site url { st with digests := dOut } now store,
      { st with digests := dOut, updated_at := some now }, ?_, hcnt, ?_, ?_⟩
    · rw [hfil, hdg]
      show Except.ok (out, save site url (trim_window { st with digests := dOut }) now store) = _
      rw [htrim]
    · exact save_lookup_self site url _ now store
    · show alook fid dOut = some (recFp r)
      exact hval
  · intro site url now opts store st r r2 fid hst hseed hdet hrid hrid2 hfp hdig hcap hwin
    have hfil := filter_eq_detect site url opts [r, r2] now store st
      (load_of_good site url now store st hst) hseed hdet
    set d1 := dictInsert fid (whites_fingerprint (r.white_list.getD [])) st.digests with hd1
    have hfp2 : whites_fingerprint (r2.white_list.getD []) =
        whites_fingerprint (r.white_list.getD []) := by
      simpa [recFp] using hfp
    have hself : alook fid d1 = some (whites_fingerprint (r.white_list.getD [])) := by
      rw [hd1]
      exact alook_dictInsert_self _ _ _
    have hdg : detectGo st.digests opts.per_run_max [] [r, r2] = .ok ([r], d1) := by
      simp only [detectGo, hrid, hrid2]
      rw [if_neg (by rw [recFp] at hdig; exact hdig)]
      by_cases hbr : opts.per_run_max ≤ 1
      · rw [if_pos (by simp only [List.length_cons, List.length_nil]; omega)]
        rfl
      · rw [if_neg (by simp only [List.length_cons, List.length_nil]; omega)]
        rw [hfp2, if_pos hself]
        rfl
    have hlen : d1.length ≤ st.digests.length + 1 := by
      rw [hd1]
      exact length_dictInsert_le _ _ _
    have htrim : trim_window { st with digests := d1 } = { st with digests := d1 } := by
      apply trim_window_id
      simp only []
      omega
    refine ⟨save site url { st with digests := d1 } now store,
      { st with digests := d1, updated_at := some now }, ?_, ?_, ?_⟩
    · rw [hfil, hdg]
      show Except.ok ([r], save site url (trim_window { st with digests := d1 }) now store) = _
      rw [htrim]
    · exact save_lookup_self site url _ now store
    · show alook fid d1 = some (recFp r)
      rw [recFp]
      exact hself

/-- Claim C1, witness: on a store tracking id "1" with the fingerprint of
`["X"]`, the batch `[{"1", ["Y"]}]` yields exactly one emission and updates
the stored digest to the fingerprint of `["Y"]`. -/
theorem C1_change_detection_witness :
    ∃ out store1 st1,
      filter_new_or_changed "site" urlEx optsD [rec1Y] "t1" storeSeededX =
        .ok (out, store1) ∧
      out.count rec1Y = 1 ∧
      alook (state_path "site" urlEx) store1 = some (.good st1) ∧
      alook "1" st1.digests = some (recFp rec1Y) :=
  C1_change_detection.2.1 "site" urlEx "t1" optsD storeSeededX stSeededX [] [] rec1Y "1"
    (by simp [storeSeededX, alook]) rfl rfl (by decide) rfl (by simp) (by simp)
    (by decide) (by decide) (by decide)

/-! ## Claim C3 — per-run cap -/

/-- Claim C3, counterexample.  With `per_run_max = 0` and an all-new batch of
length 1 (greater than the cap), the claim demands zero emissions, but the
selection emits one record: the loop checks the cap only after appending. -/
theorem C3_cap_counterexample :
    resEmits (filter_new_or_changed "site" urlEx opts0 [recZ] "t1" storeSeededEmpty) =
      some [recZ] := by
  decide

/-- Claim C3 (amended): on a seeded state with `detect_updates` on and
`per_run_max = k ≥ 1`, an all-new batch of pairwise-distinct ids longer than
`k` yields exactly the first `k` records in batch order; exactly those `k`
ids receive digest entries (with their fingerprints), and the ids of the
remaining records stay absent from the digest table (assuming the `k` new
entries fit the digest window). -/
theorem C3_cap_enforcement :
    ∀ (site url now : String) (opts : Opts) (store : Store) (st : SearchState)
      (records : List Record) (k : Nat),
      alook (state_path site url) store = some (.good st) →
      st.seeded = true → opts.detect_updates = true →
      opts.per_run_max = k → 1 ≤ k → k < records.length →
      (∀ x ∈ records, x.trainer_id.isSome) →
      (∀ x ∈ records, ∀ f, x.trainer_id = some f → alook f st.digests = none) →
      (records.filterMap (fun x => x.trainer_id)).Nodup →
      st.digests.length + k ≤ st.window_limit →
      ∃ store1 st1,
        filter_new_or_changed site url opts records now store =
          .ok (records.take k, store1) ∧
        alook (state_path site url) store1 = some (.good st1) ∧
        (∀ x ∈ records.take k, ∀ f, x.trainer_id = some f →
          alook f st1.digests = some (recFp x)) ∧
        (∀ x ∈ records.drop k, ∀ f, x.trainer_id = some f →
          alook f st1.digests = none) := by
  intro site url now opts store st records k hst hseed hdet hk hk1 hklen hsome hnew hnd hwin
  subst hk
  have hfil := filter_eq_detect site url opts records now store st
    (load_of_good site url now store st hst) hseed hdet
  rcases @detectGo_allnew records st.digests opts.per_run_max
    [] (by simpa using hk1) hnew hsome hnd with ⟨dOut, heq, htake, hdrop, hlen⟩
  have heq1 : detectGo st.digests opts.per_run_max [] records =
      .ok (records.take opts.per_run_max, dOut) := by
    simpa using heq
  have htake1 : ∀ x ∈ records.take opts.per_run_max, ∀ f, x.trainer_id = some f →
      alook f dOut = some (recFp x) := by
    simpa using htake
  have hdrop1 : ∀ x ∈ records.drop opts.per_run_max, ∀ f, x.trainer_id = some f →
      alook f dOut = none := by
    simpa using hdrop
  have hlen1 : dOut.length ≤ st.digests.length + opts.per_run_max := by
    simpa using hlen
  have htrim : trim_window { st with digests := dOut } = { st with digests := dOut } := by
    apply trim_window_id
    simp only []
    omega
  refine ⟨save site url { st with digests := dOut } now store,
    { st with digests := dOut, updated_at := some now }, ?_, ?_, ?_, ?_⟩
  · rw [hfil, heq1]
    show Except.ok (records.take opts.per_run_max,
      save site url (trim_window { st with digests := dOut }) now store) = _
    rw [htrim]
  · exact save_lookup_self site url _ now store
  · exact htake1
  · exact hdrop1

/-- Claim C3, witness: `per_run_max = 2` on a seeded empty-digest state with
an all-new batch of three distinct ids emits exactly the first two records
and records exactly their two ids. -/
theorem C3_cap_enforcement_witness :
    ∃ store1 st1,
      filter_new_or_changed "site" urlEx opts2 [recZ, recW, rec1X] "t1" storeSeededEmpty =
        .ok ([recZ, recW, rec1X].take 2, store1) ∧
      alook (state_path "site" urlEx) store1 = some (.good st1) ∧
      (∀ x ∈ [recZ, recW, rec1X].take 2, ∀ f, x.trainer_id = some f →
        alook f st1.digests = some (recFp x)) ∧
      (∀ x ∈ [recZ, recW, rec1X].drop 2, ∀ f, x.trainer_id = some f →
        alook f st1.digests = none) :=
  C3_cap_enforcement "site" urlEx "t1" opts2 storeSeededEmpty stSeededEmpty
    [recZ, recW, rec1X] 2
    (by simp [storeSeededEmpty, alook]) rfl rfl rfl (by decide) (by decide) (by decide)
    (by decide) (by decide) (by decide)

/-! ## Claim C4 — records without an id -/

/-- Claim C4, counterexample.  On a seeded state with `detect_updates` on, a
batch whose second record lacks its id is not skipped: `r["trainer_id"]`
raises `KeyError`, aborting the whole batch (no emissions, no state write),
contrary to the claimed skip-and-continue behavior. -/
theorem C4_missing_id_counterexample :
    filter_new_or_changed "site" urlEx optsD [recZ, recNoId, recW] "t1" storeSeededEmpty =
      .error .keyError := by
  decide

/-- Claim C4 (amended): in the seeded detection path a record lacking its
entity id raises `KeyError` and aborts the batch (provided the loop reaches
it before the cap): nothing is emitted and no state is saved.  Only during
seeding is a record whose id is missing or whitespace-blank skipped: seeding
behaves exactly as if the record were absent, so it adds nothing to the
digest table and does not abort the batch. -/
theorem C4_missing_id :
    (∀ (site url now : String) (opts : Opts) (store : Store) (st : SearchState)
      (pre post : List Record) (rb : Record),
      alook (state_path site url) store = some (.good st) →
      st.seeded = true → opts.detect_updates = true →
      rb.trainer_id = none →
      pre.length < opts.per_run_max →
      filter_new_or_changed site url opts (pre ++ rb :: post) now store =
        .error .keyError) ∧
    (∀ (st : SearchState) (pre post : List Record) (rb : Record),
      seedId rb = "" →
      seed_from_records st (pre ++ rb :: post) = seed_from_records st (pre ++ post)) := by
  constructor
  · intro site url now opts store st pre post rb hst hseed hdet hrb hcap
    have hfil := filter_eq_detect site url opts (pre ++ rb :: post) now store st
      (load_of_good site url now store st hst) hseed hdet
    have hdg := @detectGo_keyError pre st.digests opts.per_run_max
      [] _ post hrb (by simpa using hcap)
    rw [hfil, hdg]
  · intro st pre post rb hrb
    unfold seed_from_records
    by_cases hs : st.seeded
    · simp [hs]
    · simp only [hs, if_false]
      have hstep : ∀ acc : List (String × String), seedStep acc rb = acc := by
        intro acc
        unfold seedStep
        rw [if_pos (by simpa [seedId] using hrb)]
      simp only [List.foldl_append, List.foldl_cons, hstep]

/-- Claim C4, witness: concretely, a batch `[recZ, recNoId, recW]` on a
seeded state raises `KeyError`, and seeding with a whitespace-id record
equals seeding without it. -/
theorem C4_missing_id_witness :
    filter_new_or_changed "site" urlEx optsD [recZ, recNoId, recW] "t1" storeSeededEmpty =
      .error .keyError ∧
    seed_from_records (freshState "site" urlEx "t0") [recZ, recSpaceId, recW] =
      seed_from_records (freshState "site" urlEx "t0") [recZ, recW] :=
  ⟨C4_missing_id.1 "site" urlEx "t1" optsD storeSeededEmpty stSeededEmpty [recZ] [recW]
      recNoId (by simp [storeSeededEmpty, alook]) rfl rfl rfl (by decide),
   C4_missing_id.2 (freshState "site" urlEx "t0") [recZ] [recW] recSpaceId (by decide)⟩

/-! ## Claim C2 — seeding -/

theorem seedStep_isSome_preserve (d : List (String × String)) (r : Record) (k : String)
    (h : (alook k d).isSome) : (alook k (seedStep d r)).isSome := by
  simp only [seedStep]
  split
  · exact h
  · by_cases hk : k = pyStrip (r.trainer_id.getD "")
    · rw [hk, alook_dictInsert_self]
      rfl
    · rw [alook_dictInsert_ne _ _ _ _ hk]
      exact h

theorem seedFold_isSome_preserve (records : List Record) :
    ∀ (d : List (String × String)) (k : String),
      (alook k d).isSome → (alook k (records.foldl seedStep d)).isSome := by
  induction records with
  | nil => intro d k h; exact h
  | cons r rest ih =>
    intro d k h
    rw [List.foldl_cons]
    exact ih _ k (seedStep_isSome_preserve d r k h)

theorem seedFold_isSome_mem (records : List Record) :
    ∀ (d : List (String × String)) (r : Record), r ∈ records → seedId r ≠ "" →
      (alook (seedId r) (records.foldl seedStep d)).isSome := by
  induction records with
  | nil => intro d r h; cases h
  | cons x rest ih =>
    intro d r hmem hid
    rw [List.foldl_cons]
    rcases List.mem_cons.mp hmem with rfl | hmem
    · apply seedFold_isSome_preserve
      simp only [seedStep]
      rw [if_neg (by simpa [seedId] using hid)]
      rw [show pyStrip (r.trainer_id.getD "") = seedId r from rfl]
      rw [alook_dictInsert_self]
      rfl
    · exact ih _ r hmem hid

theorem seedStep_value_preserve (d : List (String × String)) (x : Record) (k : String)
    (v : String) (h : alook k d = some v)
    (hx : seedId x = k → recFp x = v) : alook k (seedStep d x) = some v := by
  simp only [seedStep]
  split
  · exact h
  · by_cases hk : k = pyStrip (x.trainer_id.getD "")
    · rw [hk, alook_dictInsert_self]
      have : recFp x = v := hx (by rw [seedId, ← hk])
      rw [← this]
      rfl
    · rw [alook_dictInsert_ne _ _ _ _ hk]
      exact h

theorem seedFold_value_preserve (records : List Record) :
    ∀ (d : List (String × String)) (k v : String),
      alook k d = some v →
      (∀ x ∈ records, seedId x = k → recFp x = v) →
      alook k (records.foldl seedStep d) = some v := by
  induction records with
  | nil => intro d k v h _; exact h
  | cons x rest ih =>
    intro d k v h hval
    rw [List.foldl_cons]
    exact ih _ k v (seedStep_value_preserve d x k v h (hval x (by simp)))
      (fun y hy => hval y (by simp [hy]))

theorem seedFold_value (records : List Record) :
    ∀ (d : List (String × String)) (r : Record), r ∈ records → seedId r ≠ "" →
      (∀ x ∈ records, seedId x = seedId r → recFp x = recFp r) →
      alook (seedId r) (records.foldl seedStep d) = some (recFp r) := by
  induction records with
  | nil => intro d r h; cases h
  | cons x rest ih =>
    intro d r hmem hid hval
    rw [List.foldl_cons]
    by_cases hrest : r ∈ rest
    · exact ih _ r hrest hid (fun y hy => hval y (by simp [hy]))
    · have hrx : r = x := by
        rcases List.mem_cons.mp hmem with h | h
        · exact h
        · exact absurd h hrest
      subst hrx
      apply seedFold_value_preserve
      · simp only [seedStep]
        rw [if_neg (by simpa [seedId] using hid)]
        rw [show pyStrip (r.trainer_id.getD "") = seedId r from rfl]
        rw [show whites_fingerprint (r.white_list.getD []) = recFp r from rfl]
        exact alook_dictInsert_self _ _ _
      · intro y hy
        exact hval y (by simp [hy])

theorem seedStep_len (d : List (String × String)) (r : Record) :
    (seedStep d r).length ≤ d.length + 1 := by
  simp only [seedStep]
  split
  · omega
  · exact length_dictInsert_le _ _ _

theorem seedFold_len (records : List Record) :
    ∀ d : List (String × String),
      (records.foldl seedStep d).length ≤ d.length + records.length := by
  induction records with
  | nil => intro d; simp
  | cons r rest ih =>
    intro d
    rw [List.foldl_cons]
    have h1 := ih (seedStep d r)
    have h2 := seedStep_len d r
    simp only [List.length_cons]
    omega

/-- Claim C2, counterexample.  On a fresh (unseeded) state, a batch whose
record carries the non-empty entity id `" "` yields zero emissions and flips
the seeded flag — but `digests` is not populated for the record: the code
strips the id to the empty string and skips it. -/
theorem C2_seeding_counterexample :
    resEmits (filter_new_or_changed "site" urlEx optsD [recSpaceId] "t0" []) = some [] ∧
    digestsAt "site" urlEx
      (filter_new_or_changed "site" urlEx optsD [recSpaceId] "t0" []) = some [] := by
  constructor
  · decide
  · decide

/-- Claim C2 (amended): for every unseeded state and every batch (including
the empty batch), the selection emits zero records, flips `seeded` to true,
and populates `digests` for every record whose entity id is non-empty after
whitespace trimming, keyed by the trimmed id (a later same-id record
overwrites an earlier one; the stored value is the record's tag-list
fingerprint whenever all same-id records in the batch agree on it), provided
the prior digest count plus the batch length fits the window limit. -/
theorem C2_seeding :
    ∀ (site url now : String) (opts : Opts) (store : Store) (st : SearchState)
      (records : List Record),
      load site url now store = .ok st →
      st.seeded = false →
      st.digests.length + records.length ≤ st.window_limit →
      ∃ store1 st1,
        filter_new_or_changed site url opts records now store = .ok ([], store1) ∧
        alook (state_path site url) store1 = some (.good st1) ∧
        st1.seeded = true ∧
        (∀ r ∈ records, seedId r ≠ "" → (alook (seedId r) st1.digests).isSome) ∧
        (∀ r ∈ records, seedId r ≠ "" →
          (∀ x ∈ records, seedId x = seedId r → recFp x = recFp r) →
          alook (seedId r) st1.digests = some (recFp r)) := by
  intro site url now opts store st records hload hseed hwin
  have hfil := filter_eq_seed site url opts records now store st hload hseed
  have hseedeq : seed_from_records st records =
      { st with digests := records.foldl seedStep st.digests, seeded := true } := by
    unfold seed_from_records
    rw [if_neg (by rw [hseed]; simp)]
  have hlen := seedFold_len records st.digests
  have htrim : trim_window
      { st with digests := records.foldl seedStep st.digests, seeded := true } =
      { st with digests := records.foldl seedStep st.digests, seeded := true } := by
    apply trim_window_id
    simp only []
    omega
  refine ⟨save site url { st with digests := records.foldl seedStep st.digests, seeded := true } now store, { st with digests := records.foldl seedStep st.digests, seeded := true, updated_at := some now }, ?_, ?_, rfl, ?_, ?_⟩
  · rw [hfil, hseedeq, htrim]
  · exact save_lookup_self site url _ now store
  · intro r hr hid
    exact seedFold_isSome_mem records st.digests r hr hid
  · intro r hr hid hval
    exact seedFold_value records st.digests r hr hid hval

/-- Claim C2, witness: a fresh store seeded with two records (one valid id,
one whitespace-only id) emits nothing, flips `seeded`, and tracks the valid
id with its fingerprint. -/
theorem C2_seeding_witness :
    ∃ store1 st1,
      filter_new_or_changed "site" urlEx optsD [rec1X, recSpaceId] "t0" [] =
        .ok ([], store1) ∧
      alook (state_path "site" urlEx) store1 = some (.good st1) ∧
      st1.seeded = true ∧
      (∀ r ∈ [rec1X, recSpaceId], seedId r ≠ "" → (alook (seedId r) st1.digests).isSome) ∧
      (∀ r ∈ [rec1X, recSpaceId], seedId r ≠ "" →
        (∀ x ∈ [rec1X, recSpaceId], seedId x = seedId r → recFp x = recFp r) →
        alook (seedId r) st1.digests = some (recFp r)) :=
  C2_seeding "site" urlEx "t0" optsD [] (freshState "site" urlEx "t0") [rec1X, recSpaceId]
    rfl rfl (by decide)

/-! ## Run-driver lemmas (claims C5 and C10) -/

theorem filter_eq_loadError (site url : String) (opts : Opts) (records : List Record)
    (now : String) (store : Store)
    (h : alook (state_path site url) store = some .bad) :
    filter_new_or_changed site url opts records now store = .error .jsonError := by
  unfold filter_new_or_changed load
  rw [h]
  rfl

theorem load_of_none (site url now : String) (store : Store)
    (h : alook (state_path site url) store = none) :
    load site url now store = .ok (freshState site url now) := by
  unfold load
  rw [h]

theorem trim_window_seeded (st : SearchState) : (trim_window st).seeded = st.seeded := by
  simp only [trim_window]
  split
  · rfl
  · rfl

theorem trim_window_limit (st : SearchState) :
    (trim_window st).window_limit = st.window_limit := by
  simp only [trim_window]
  split
  · rfl
  · rfl

theorem seed_from_records_seeded (st : SearchState) (records : List Record) :
    (seed_from_records st records).seeded = true := by
  unfold seed_from_records
  split
  · assumption
  · rfl

theorem runSearches_nil (site : String) (opts : Opts) (scrape : String → List Record)
    (now : String) (store : Store) :
    runSearches site opts scrape now store [] = (store, [], none) := rfl

theorem runSearches_append_ok {pre : List Search} :
    ∀ {site : String} {opts : Opts} {scrape : String → List Record} {now : String}
      {store store1 : Store} {posted : List Record} {l2 : List Search},
      runSearches site opts scrape now store pre = (store1, posted, none) →
      runSearches site opts scrape now store (pre ++ l2) =
        ((runSearches site opts scrape now store1 l2).1,
         posted ++ (runSearches site opts scrape now store1 l2).2.1,
         (runSearches site opts scrape now store1 l2).2.2) := by
  induction pre with
  | nil =>
    intro site opts scrape now store store1 posted l2 h
    rw [runSearches_nil] at h
    cases h
    simp
  | cons sr rest ih =>
    intro site opts scrape now store store1 posted l2 h
    by_cases hrec : scrape sr.url = []
    · simp only [runSearches, List.cons_append] at h ⊢
      rw [if_pos hrec] at h ⊢
      exact ih h
    · rcases hf1 : filter_new_or_changed site sr.url opts (scrape sr.url) now store with
        e | ⟨out1, storeA⟩
      · simp only [runSearches, List.cons_append] at h
        rw [if_neg hrec] at h
        rw [hf1] at h
        simp at h
      · rcases hf2 : filter_new_or_changed site (sr.url ++ "||search=" ++ sr.name) opts
          (scrape sr.url) now storeA with e | ⟨out2, storeB⟩
        · simp only [runSearches, List.cons_append] at h
          rw [if_neg hrec] at h
          simp only [hf1] at h
          simp only [hf2] at h
          simp at h
        · rcases hres : runSearches site opts scrape now storeB rest with ⟨s3, p3, e3⟩
          simp only [runSearches, List.cons_append] at h ⊢
          rw [if_neg hrec] at h ⊢
          simp only [hf1] at h ⊢
          simp only [hf2] at h ⊢
          rw [hres] at h
          simp only [Prod.mk.injEq] at h
          rcases h with ⟨h1, h2, h3⟩
          subst h1
          subst h3
          have ih2 := @ih site opts scrape now storeB s3 p3 l2 hres
          simp only [List.append_eq]
          rw [ih2, ← h2]
          simp

/-! ## Claim C5 — malformed state file -/

/-- Claim C5, counterexample.  With two configured searches and a malformed
state file for the first search's URL key, the run stops at the first search
with the parse error: nothing is dispatched, the second search is never
processed (no state files appear for it), and the store is returned exactly
as it was — so the prior file is untouched, but the run does not continue
with the remaining searches. -/
theorem C5_state_corruption_counterexample :
    runSearches "site" optsD scrapeZ "t0" storeBadA [searchA, searchB] =
      (storeBadA, [], some .jsonError) ∧
    alook (state_path "site" searchB.url) storeBadA = none ∧
    alook (state_path "site" (searchB.url ++ "||search=" ++ searchB.name)) storeBadA =
      none := by
  refine ⟨by decide, by decide, by decide⟩

/-- Claim C5 (amended): when the run reaches a search whose persisted state
file is malformed, `load` raises before any write, so the prior state file is
left on disk untouched and nothing is dispatched for that search — but the
exception propagates uncaught: the run returns with the error and the
remaining searches are not processed. -/
theorem C5_state_corruption :
    ∀ (site : String) (opts : Opts) (scrape : String → List Record) (now : String)
      (store store1 : Store) (posted : List Record) (pre : List Search)
      (sbad : Search) (rest : List Search),
      runSearches site opts scrape now store pre = (store1, posted, none) →
      alook (state_path site sbad.url) store1 = some .bad →
      scrape sbad.url ≠ [] →
      runSearches site opts scrape now store (pre ++ sbad :: rest) =
        (store1, posted, some .jsonError) := by
  intro site opts scrape now store store1 posted pre sbad rest hpre hbad hscr
  rw [runSearches_append_ok hpre]
  have hstep : runSearches site opts scrape now store1 (sbad :: rest) =
      (store1, [], some .jsonError) := by
    simp only [runSearches]
    rw [if_neg hscr]
    rw [filter_eq_loadError site sbad.url opts (scrape sbad.url) now store1 hbad]
  rw [hstep]
  simp

/-- Claim C5, witness: starting from the store with the malformed file, the
run over `[searchA, searchB]` (empty successful prefix) returns the store
unchanged with the parse error. -/
theorem C5_state_corruption_witness :
    runSearches "site" optsD scrapeZ "t0" storeBadA ([] ++ searchA :: [searchB]) =
      (storeBadA, [], some Err.jsonError) :=
  C5_state_corruption "site" optsD scrapeZ "t0" storeBadA storeBadA [] []
    searchA [searchB] rfl (by decide) (by decide)

/-! ## Claim C10 — the run driver's double selection -/

/-- Claim C10: for a search whose scrape is non-empty the run driver performs
the selection-and-persist cycle twice — once keyed by the raw search URL and
once keyed by `"<url>||search=<name>"` — and dispatches only the second
call's emissions (a); starting from a store with neither file present, both
state files are created, seeded, with zero dispatches (b); and the two keys
map to distinct state files for the sample search (c). -/
theorem C10_run_double_cycle :
    (∀ (site : String) (opts : Opts) (scrape : String → List Record) (now : String)
      (store : Store) (sr : Search) (rest : List Search)
      (out1 out2 : List Record) (store1 store2 : Store),
      scrape sr.url ≠ [] →
      filter_new_or_changed site sr.url opts (scrape sr.url) now store =
        .ok (out1, store1) →
      filter_new_or_changed site (sr.url ++ "||search=" ++ sr.name) opts
        (scrape sr.url) now store1 = .ok (out2, store2) →
      runSearches site opts scrape now store (sr :: rest) =
        ((runSearches site opts scrape now store2 rest).1,
         out2 ++ (runSearches site opts scrape now store2 rest).2.1,
         (runSearches site opts scrape now store2 rest).2.2)) ∧
    (∀ (site : String) (opts : Opts) (scrape : String → List Record) (now : String)
      (store : Store) (sr : Search),
      scrape sr.url ≠ [] →
      alook (state_path site sr.url) store = none →
      alook (state_path site (sr.url ++ "||search=" ++ sr.name)) store = none →
      state_path site sr.url ≠ state_path site (sr.url ++ "||search=" ++ sr.name) →
      ∃ st1 st2,
        (runSearches site opts scrape now store [sr]).2.1 = [] ∧
        (runSearches site opts scrape now store [sr]).2.2 = none ∧
        alook (state_path site sr.url) (runSearches site opts scrape now store [sr]).1 =
          some (.good st1) ∧
        st1.seeded = true ∧
        alook (state_path site (sr.url ++ "||search=" ++ sr.name))
          (runSearches site opts scrape now store [sr]).1 = some (.good st2) ∧
        st2.seeded = true) ∧
    state_path "site" urlEx ≠ state_path "site" (urlEx ++ "||search=" ++ "main") := by
  refine ⟨?_, ?_, by decide⟩
  · intro site opts scrape now store sr rest out1 out2 store1 store2 hscr hf1 hf2
    simp only [runSearches]
    rw [if_neg hscr]
    simp only [hf1]
    simp only [hf2]
  · intro site opts scrape now store sr hscr hn1 hn2 hne
    have hf1 := filter_eq_seed site sr.url opts (scrape sr.url) now store
      (freshState site sr.url now) (load_of_none site sr.url now store hn1) rfl
    have hs1 : (trim_window (seed_from_records (freshState site sr.url now)
        (scrape sr.url))).seeded = true := by
      rw [trim_window_seeded, seed_from_records_seeded]
    have hlook1 : alook (state_path site sr.url)
        (save site sr.url (trim_window (seed_from_records (freshState site sr.url now)
          (scrape sr.url))) now store) =
        some (.good { trim_window (seed_from_records (freshState site sr.url now)
          (scrape sr.url)) with updated_at := some now }) :=
      save_lookup_self site sr.url _ now store
    have hn2a : alook (state_path site (sr.url ++ "||search=" ++ sr.name))
        (save site sr.url (trim_window (seed_from_records (freshState site sr.url now)
          (scrape sr.url))) now store) = none := by
      unfold save
      rw [alook_dictInsert_ne _ _ _ _ (Ne.symm hne)]
      exact hn2
    have hf2 := filter_eq_seed site (sr.url ++ "||search=" ++ sr.name) opts
      (scrape sr.url) now
      (save site sr.url (trim_window (seed_from_records (freshState site sr.url now)
        (scrape sr.url))) now store)
      (freshState site (sr.url ++ "||search=" ++ sr.name) now)
      (load_of_none site (sr.url ++ "||search=" ++ sr.name) now _ hn2a) rfl
    refine ⟨{ trim_window (seed_from_records (freshState site sr.url now)
        (scrape sr.url)) with updated_at := some now },
      { trim_window (seed_from_records (freshState site
          (sr.url ++ "||search=" ++ sr.name) now) (scrape sr.url)) with
        updated_at := some now }, ?_, ?_, ?_, ?_, ?_, ?_⟩
    · simp only [runSearches]
      rw [if_neg hscr]
      simp only [hf1]
      simp only [hf2]
      rfl
    · simp only [runSearches]
      rw [if_neg hscr]
      simp only [hf1]
      simp only [hf2]
    · simp only [runSearches]
      rw [if_neg hscr]
      simp only [hf1]
      simp only [hf2]
      show alook (state_path site sr.url)
        (save site (sr.url ++ "||search=" ++ sr.name) _ now _) = _
      unfold save
      rw [alook_dictInsert_ne _ _ _ _ hne]
      exact hlook1
    · simp only []
      rw [trim_window_seeded, seed_from_records_seeded]
    · simp only [runSearches]
      rw [if_neg hscr]
      simp only [hf1]
      simp only [hf2]
      exact save_lookup_self site (sr.url ++ "||search=" ++ sr.name) _ now _
    · simp only []
      rw [trim_window_seeded, seed_from_records_seeded]

/-- Claim C10, witness: on an empty store, running the single sample search
"main" creates and seeds both state files (raw-URL key and name-qualified
key) and dispatches nothing. -/
theorem C10_run_double_cycle_witness :
    ∃ st1 st2,
      (runSearches "site" optsD scrapeZ "t0" [] [searchMain]).2.1 = [] ∧
      (runSearches "site" optsD scrapeZ "t0" [] [searchMain]).2.2 = none ∧
      alook (state_path "site" searchMain.url)
        (runSearches "site" optsD scrapeZ "t0" [] [searchMain]).1 = some (.good st1) ∧
      st1.seeded = true ∧
      alook (state_path "site" (searchMain.url ++ "||search=" ++ searchMain.name))
        (runSearches "site" optsD scrapeZ "t0" [] [searchMain]).1 = some (.good st2) ∧
      st2.seeded = true :=
  C10_run_double_cycle.2.1 "site" optsD scrapeZ "t0" [] searchMain
    (by decide) rfl rfl (by decide)

/-! ## Claim C6 — URL canonicalization of state keys -/

/-- Claim C6, counterexample.  The two URLs of the claim do NOT share a
storage key: in `"https://X.test/s?a=1&b=2/"` the trailing slash is part of
the query string, not the path, so the second value parses as `"2/"` and is
re-encoded as `b=2%2F`, while the first URL's query re-encodes as `b=2`. -/
theorem C6_url_canon_counterexample :
    state_path "site" "https://x.test/s?b=2&a=1" ≠
      state_path "site" "https://X.test/s?a=1&b=2/" := by
  decide

/-- Claim C6 (amended): two URLs whose split components agree after
canonicalization — case-folded scheme and host, path with one non-root
trailing slash dropped, query re-encoded with sorted parameters — map to the
same canonical URL and the same storage key, whatever their fragments; in
particular host case, query order, a fragment, and a trailing slash on the
path canonicalize away (concrete instances included), and the root path `/`
is preserved.  A trailing slash after a query string, however, belongs to the
query value, so the claim's example pair maps to two different keys. -/
theorem C6_url_canonicalization :
    (∀ (site u1 u2 : String) (p1 p2 : SplitUrl),
      urlsplitE (nfkcStr (pyStrip u1)) = .ok p1 →
      urlsplitE (nfkcStr (pyStrip u2)) = .ok p2 →
      nfkcStr (pyStrip u1) ≠ "" → nfkcStr (pyStrip u2) ≠ "" →
      toLowerStr p1.scheme = toLowerStr p2.scheme →
      toLowerStr p1.netloc = toLowerStr p2.netloc →
      canonPath p1.path = canonPath p2.path →
      canonQuery p1.query = canonQuery p2.query →
      canon_url u1 = canon_url u2 ∧ state_path site u1 = state_path site u2) ∧
    state_path "site" "https://x.test/s?b=2&a=1" =
      state_path "site" "https://X.test/s?a=1&b=2#frag" ∧
    state_path "site" "https://x.test/s/" = state_path "site" "https://x.test/s" ∧
    canon_url "https://x.test/" = "https://x.test/" := by
  refine ⟨?_, by decide, by decide, by decide⟩
  intro site u1 u2 p1 p2 hsp1 hsp2 hne1 hne2 hs hn hp hq
  have hc1 : canon_url u1 =
      urlunsplitPy ⟨toLowerStr p1.scheme, toLowerStr p1.netloc, canonPath p1.path,
        canonQuery p1.query, ""⟩ := by
    simp only [canon_url]
    rw [if_neg hne1]
    simp only [hsp1]
  have hc2 : canon_url u2 =
      urlunsplitPy ⟨toLowerStr p2.scheme, toLowerStr p2.netloc, canonPath p2.path,
        canonQuery p2.query, ""⟩ := by
    simp only [canon_url]
    rw [if_neg hne2]
    simp only [hsp2]
  have hcanon : canon_url u1 = canon_url u2 := by
    rw [hc1, hc2, hs, hn, hp, hq]
  exact ⟨hcanon, by unfold state_path search_key; rw [hcanon]⟩

/-- Claim C6, witness: host case, query order and fragment canonicalize
identically for the sample pair; the component hypotheses are discharged on
the concrete parses. -/
theorem C6_url_canonicalization_witness :
    canon_url "https://x.test/s?b=2&a=1" = canon_url "https://X.test/s?a=1&b=2#frag" ∧
    state_path "site" "https://x.test/s?b=2&a=1" =
      state_path "site" "https://X.test/s?a=1&b=2#frag" :=
  C6_url_canonicalization.1 "site" "https://x.test/s?b=2&a=1"
    "https://X.test/s?a=1&b=2#frag"
    ⟨"https", "x.test", "/s", "b=2&a=1", ""⟩
    ⟨"https", "X.test", "/s", "a=1&b=2", "frag"⟩
    (by decide) (by decide) (by decide) (by decide) (by decide) (by decide)
    (by decide) (by decide)

/-! ## Claim C8 — idempotence of the text normalizer

`_clean_token` is a pure total Lean function by construction.  The
development below settles idempotence: the normal form reached after one
pass (`tokNorm`) is a fixed point of every stage, and one pass lands in the
normal form for every combining-free input.  (For inputs with combining
marks idempotence fails: removing a zero-width character can juxtapose a
base letter and a combining accent, which NFKC then composes on the second
pass — see the counterexample.) -/

theorem headNotSpace_iff (l : List Char) :
    headNotSpace l ↔ ∀ c ∈ l.head?, pyIsSpace c = false := by
  cases l <;> simp [headNotSpace]

theorem decomposeL_cons (c : Char) (t : List Char) :
    decomposeL (c :: t) = (kDecomp c).getD [c] ++ decomposeL t := rfl

theorem decomposeL_id {l : List Char} (h : ∀ c ∈ l, kDecomp c = none) :
    decomposeL l = l := by
  induction l with
  | nil => rfl
  | cons c t ih =>
    rw [decomposeL_cons, h c (by simp), ih (fun x hx => h x (by simp [hx]))]
    rfl

theorem kDecomp_image {c : Char} {img : List Char} (h : kDecomp c = some img) :
    ∀ c' ∈ img, kDecomp c' = none ∧ cccM c' = 0 ∧ c' ≠ chZwsp ∧ c' ≠ chBom := by
  unfold kDecomp at h
  split_ifs at h <;> (injection h with h
                      subst h
                      intro c' hc'
                      simp only [List.mem_singleton] at hc'
                      subst hc'
                      exact ⟨by decide, by decide, by decide, by decide⟩)

theorem decomposeL_P0 {l : List Char} (hccc : ∀ c ∈ l, cccM c = 0) :
    ∀ c' ∈ decomposeL l, kDecomp c' = none ∧ cccM c' = 0 := by
  induction l with
  | nil => simp [decomposeL]
  | cons c t ih =>
    intro c' hc'
    rw [decomposeL_cons] at hc'
    rcases List.mem_append.mp hc' with hm | hm
    · rcases hk : kDecomp c with _ | img
      · rw [hk] at hm
        simp only [Option.getD_none, List.mem_singleton] at hm
        subst hm
        exact ⟨hk, hccc c' (by simp)⟩
      · rw [hk] at hm
        simp only [Option.getD_some] at hm
        have := kDecomp_image hk c' hm
        exact ⟨this.1, this.2.1⟩
    · exact ih (fun x hx => hccc x (by simp [hx])) c' hm

theorem reorder_foldl_id {l : List Char} :
    ∀ acc : List Char, (∀ c ∈ l, cccM c = 0) →
      l.foldl (fun acc c => if cccM c = 0 then c :: acc else insertCanon c acc) acc =
        l.reverse ++ acc := by
  induction l with
  | nil => intro acc _; simp
  | cons c t ih =>
    intro acc h
    rw [List.foldl_cons, if_pos (h c (by simp)), ih (c :: acc) (fun x hx => h x (by simp [hx]))]
    simp

theorem reorderL_id {l : List Char} (h : ∀ c ∈ l, cccM c = 0) : reorderL l = l := by
  unfold reorderL
  rw [reorder_foldl_id [] h]
  simp

theorem compGo_id {cs : List Char} :
    ∀ st : Char, (∀ c ∈ cs, cccM c = 0) → compGo st [] cs = st :: cs := by
  induction cs with
  | nil => intro st _; rfl
  | cons c t ih =>
    intro st h
    simp only [compGo, if_pos (h c (by simp))]
    rw [ih c (fun x hx => h x (by simp [hx]))]
    rfl

theorem composeL_id {l : List Char} (h : ∀ c ∈ l, cccM c = 0) : composeL l = l := by
  cases l with
  | nil => rfl
  | cons c t =>
    simp only [composeL, if_pos (h c (by simp))]
    exact compGo_id c (fun x hx => h x (by simp [hx]))

theorem nfkcL_id {l : List Char} (h : ∀ c ∈ l, kDecomp c = none ∧ cccM c = 0) :
    nfkcL l = l := by
  unfold nfkcL
  rw [decomposeL_id (fun c hc => (h c hc).1),
    reorderL_id (fun c hc => (h c hc).2),
    composeL_id (fun c hc => (h c hc).2)]

theorem nfkcL_P0 {l : List Char} (hccc : ∀ c ∈ l, cccM c = 0) :
    nfkcL l = decomposeL l ∧ ∀ c' ∈ nfkcL l, kDecomp c' = none ∧ cccM c' = 0 := by
  have hdec := decomposeL_P0 hccc
  have heq : nfkcL l = decomposeL l := by
    unfold nfkcL
    rw [reorderL_id (fun c hc => (hdec c hc).2),
      composeL_id (fun c hc => (hdec c hc).2)]
  constructor
  · exact heq
  · rw [heq]
    exact hdec

theorem replNbspZw_cons (c : Char) (t : List Char) :
    replNbspZw (c :: t) =
      (if c = chNbsp then ' ' :: replNbspZw t
       else if c = chZwsp then replNbspZw t
       else if c = chBom then replNbspZw t
       else c :: replNbspZw t) := rfl

theorem replNbspZw_id {l : List Char}
    (h : ∀ c ∈ l, c ≠ chNbsp ∧ c ≠ chZwsp ∧ c ≠ chBom) : replNbspZw l = l := by
  induction l with
  | nil => rfl
  | cons c t ih =>
    have hc := h c (by simp)
    rw [replNbspZw_cons, if_neg hc.1, if_neg hc.2.1, if_neg hc.2.2,
      ih (fun x hx => h x (by simp [hx]))]

theorem replNbspZw_mem {l : List Char} :
    ∀ c' ∈ replNbspZw l, (c' = ' ' ∨ c' ∈ l) ∧ c' ≠ chZwsp ∧ c' ≠ chBom ∧ c' ≠ chNbsp := by
  induction l with
  | nil => simp [replNbspZw]
  | cons c t ih =>
    intro c' hc'
    rw [replNbspZw_cons] at hc'
    split_ifs at hc' with h1 h2 h3
    · rcases List.mem_cons.mp hc' with rfl | hm
      · exact ⟨Or.inl rfl, by decide, by decide, by decide⟩
      · have := ih c' hm
        exact ⟨this.1.imp id (fun hx => by simp [hx]), this.2⟩
    · have := ih c' hc'
      exact ⟨this.1.imp id (fun hx => by simp [hx]), this.2⟩
    · have := ih c' hc'
      exact ⟨this.1.imp id (fun hx => by simp [hx]), this.2⟩
    · rcases List.mem_cons.mp hc' with rfl | hm
      · refine ⟨Or.inr (by simp), h2, h3, h1⟩
      · have := ih c' hm
        exact ⟨this.1.imp id (fun hx => by simp [hx]), this.2⟩

theorem collapseGo_mem :
    ∀ (b : Bool) (l : List Char), ∀ c' ∈ collapseGo b l,
      c' = ' ' ∨ (c' ∈ l ∧ pyIsSpace c' = false) := by
  intro b l
  induction l generalizing b with
  | nil => simp [collapseGo]
  | cons c t ih =>
    intro c' hc'
    simp only [collapseGo] at hc'
    split_ifs at hc' with h1 h2
    · rcases ih true c' hc' with h | h
      · exact Or.inl h
      · exact Or.inr ⟨by simp [h.1], h.2⟩
    · rcases List.mem_cons.mp hc' with rfl | hm
      · exact Or.inl rfl
      · rcases ih true c' hm with h | h
        · exact Or.inl h
        · exact Or.inr ⟨by simp [h.1], h.2⟩
    · rcases List.mem_cons.mp hc' with rfl | hm
      · exact Or.inr ⟨by simp, by simpa using h1⟩
      · rcases ih false c' hm with h | h
        · exact Or.inl h
        · exact Or.inr ⟨by simp [h.1], h.2⟩

theorem collapseGo_true_head (l : List Char) : headNotSpace (collapseGo true l) := by
  induction l with
  | nil => trivial
  | cons c t ih =>
    simp only [collapseGo]
    split_ifs with h1
    · exact ih
    · simpa [headNotSpace] using h1

theorem collapseGo_chain : ∀ (b : Bool) (l : List Char),
    noDoubleSpace (collapseGo b l) := by
  intro b l
  induction l generalizing b with
  | nil => simp [collapseGo, noDoubleSpace]
  | cons c t ih =>
    simp only [collapseGo]
    split_ifs with h1 h2
    · exact ih true
    · unfold noDoubleSpace
      rw [List.chain'_cons']
      refine ⟨?_, ih true⟩
      intro y hy
      have hh := collapseGo_true_head t
      rw [headNotSpace_iff] at hh
      intro hcon
      rw [hh y hy] at hcon
      exact Bool.noConfusion hcon.2
    · unfold noDoubleSpace
      rw [List.chain'_cons']
      refine ⟨?_, ih false⟩
      intro y hy
      intro hcon
      rw [Bool.not_eq_true] at h1
      rw [h1] at hcon
      exact Bool.noConfusion hcon.1

theorem collapseGo_true_false {l : List Char} (h : headNotSpace l) :
    collapseGo true l = collapseGo false l := by
  cases l with
  | nil => rfl
  | cons c t =>
    have hc : pyIsSpace c = false := by simpa [headNotSpace] using h
    simp [collapseGo, hc]

theorem collapseGo_id {l : List Char} (hsp : ∀ c ∈ l, pyIsSpace c = true → c = ' ')
    (hnd : noDoubleSpace l) : collapseGo false l = l := by
  induction l with
  | nil => rfl
  | cons c t ih =>
    simp only [collapseGo]
    have hndt : noDoubleSpace t := List.Chain'.tail hnd
    by_cases h1 : pyIsSpace c = true
    · rw [if_pos h1]
      simp only [Bool.false_eq_true, if_false]
      rw [hsp c (by simp) h1]
      have hht : headNotSpace t := by
        rw [headNotSpace_iff]
        intro y hy
        unfold noDoubleSpace at hnd
        rw [List.chain'_cons'] at hnd
        have := hnd.1 y hy
        by_cases hys : pyIsSpace y = true
        · exact absurd ⟨h1, hys⟩ this
        · simpa using hys
      rw [collapseGo_true_false hht, ih (fun x hx => hsp x (by simp [hx])) hndt]
    · rw [if_neg h1, ih (fun x hx => hsp x (by simp [hx])) hndt]

theorem chainSuffixPres {R : Char → Char → Prop} {l1 l : List Char}
    (h : List.Chain' R l) (hs : l1 <:+ l) : List.Chain' R l1 :=
  List.Chain'.suffix h hs

theorem chainPrefixPres {R : Char → Char → Prop} {l1 l : List Char}
    (h : List.Chain' R l) (hp : l1 <+: l) : List.Chain' R l1 :=
  List.Chain'.prefix h hp

theorem reversePrefixOfSuffixRev {l1 l : List Char} (h : l1 <:+ l.reverse) :
    l1.reverse <+: l := by
  have h2 : l1.reverse <+: l.reverse.reverse := List.reverse_prefix.mpr h
  rwa [List.reverse_reverse] at h2

theorem dropWhile_headNot (l : List Char) : headNotSpace (l.dropWhile pyIsSpace) := by
  induction l with
  | nil => trivial
  | cons c t ih =>
    rw [List.dropWhile_cons]
    split_ifs with h
    · exact ih
    · simpa [headNotSpace] using h

theorem dropWhile_getLastEq {l : List Char} (h : l.dropWhile pyIsSpace ≠ []) :
    (l.dropWhile pyIsSpace).getLast? = l.getLast? := by
  induction l with
  | nil => rfl
  | cons c t ih =>
    rw [List.dropWhile_cons] at h ⊢
    split_ifs at h ⊢ with hc
    · cases t with
      | nil => simp [List.dropWhile] at h
      | cons b tb =>
        rw [ih h, List.getLast?_cons_cons]
    · rfl

theorem dropWhile_eq_self_of_head {l : List Char} (h : headNotSpace l) :
    l.dropWhile pyIsSpace = l := by
  cases l with
  | nil => rfl
  | cons c t =>
    rw [List.dropWhile_cons, if_neg (by simpa [headNotSpace] using h)]

theorem pyStripL_id {l : List Char} (hh : headNotSpace l) (hl : lastNotSpace l) :
    pyStripL l = l := by
  unfold pyStripL
  rw [dropWhile_eq_self_of_head hh, dropWhile_eq_self_of_head hl, List.reverse_reverse]

theorem pyStripL_head (l : List Char) : headNotSpace (pyStripL l) := by
  unfold pyStripL
  rw [headNotSpace_iff]
  intro c hc
  rw [List.head?_reverse] at hc
  rcases hemp : (l.dropWhile pyIsSpace).reverse.dropWhile pyIsSpace with _ | ⟨b, tb⟩
  · rw [hemp] at hc
    simp at hc
  · rw [hemp] at hc
    have hne : (l.dropWhile pyIsSpace).reverse.dropWhile pyIsSpace ≠ [] := by
      rw [hemp]
      simp
    have := dropWhile_getLastEq hne
    rw [hemp] at this
    rw [this, List.getLast?_reverse] at hc
    have hh := dropWhile_headNot l
    rw [headNotSpace_iff] at hh
    exact hh c hc

theorem pyStripL_last (l : List Char) : lastNotSpace (pyStripL l) := by
  unfold pyStripL lastNotSpace
  rw [List.reverse_reverse]
  exact dropWhile_headNot _

theorem pyStripL_mem {l : List Char} : ∀ c ∈ pyStripL l, c ∈ l := by
  intro c hc
  unfold pyStripL at hc
  rw [List.mem_reverse] at hc
  have h1 := (List.dropWhile_sublist (l := (l.dropWhile pyIsSpace).reverse)
    pyIsSpace).subset hc
  rw [List.mem_reverse] at h1
  exact (List.dropWhile_sublist pyIsSpace).subset h1

theorem pyStripL_chain {R : Char → Char → Prop} {l : List Char}
    (h : List.Chain' R l) : List.Chain' R (pyStripL l) := by
  have h1 : List.Chain' R (l.dropWhile pyIsSpace) :=
    chainSuffixPres h (List.dropWhile_suffix pyIsSpace)
  have h2 : (l.dropWhile pyIsSpace).reverse.dropWhile pyIsSpace <:+
      (l.dropWhile pyIsSpace).reverse := List.dropWhile_suffix pyIsSpace
  exact chainPrefixPres h1 (reversePrefixOfSuffixRev h2)

theorem lastNotSpace_iff (l : List Char) :
    lastNotSpace l ↔ ∀ c ∈ l.getLast?, pyIsSpace c = false := by
  unfold lastNotSpace
  rw [headNotSpace_iff]
  constructor
  · intro h c hc
    exact h c (by rwa [List.head?_reverse])
  · intro h c hc
    rw [List.head?_reverse] at hc
    exact h c hc

theorem subBGo_nil (p : Char → Bool) (run : List Char) :
    subBGo p run [] = run.reverse := rfl

theorem subBGo_empty {p : Char → Bool} :
    ∀ {l run : List Char}, subBGo p run l = [] → run = [] ∧ l = [] := by
  intro l
  induction l with
  | nil =>
    intro run h
    rw [subBGo_nil] at h
    exact ⟨by simpa using h, rfl⟩
  | cons c cs ih =>
    intro run h
    simp only [subBGo] at h
    split_ifs at h with h1 h2
    · exact absurd (ih h).1 (by simp)
    · rcases List.append_eq_nil.mp h with ⟨_, h3⟩
      exact absurd h3 (by simp)

theorem subBGo_head {p : Char → Bool} :
    ∀ {l run : List Char} {c' : Char},
      (subBGo p run l).head? = some c' →
      (run.reverse ++ l).head? = some c' ∨ p c' = true := by
  intro l
  induction l with
  | nil =>
    intro run c' h
    rw [subBGo_nil] at h
    rw [List.append_nil]
    exact Or.inl h
  | cons c cs ih =>
    intro run c' h
    simp only [subBGo] at h
    split_ifs at h with h1 h2
    · rcases ih h with hm | hm
      · left
        rw [List.reverse_cons, List.append_assoc] at hm
        exact hm
      · exact Or.inr hm
    · cases h
      exact Or.inr h2
    · rcases hrun : run.reverse with _ | ⟨b, tb⟩
      · rw [hrun] at h
        simp only [List.nil_append, List.head?_cons] at h
        cases h
        left
        rfl
      · rw [hrun] at h
        simp only [List.cons_append, List.head?_cons] at h
        cases h
        left
        rfl

theorem subBGo_subset {p : Char → Bool} :
    ∀ {l run : List Char}, ∀ c' ∈ subBGo p run l, c' ∈ run.reverse ++ l := by
  intro l
  induction l with
  | nil =>
    intro run c' h
    rw [subBGo_nil] at h
    simp [h]
  | cons c cs ih =>
    intro run c' h
    simp only [subBGo] at h
    split_ifs at h with h1 h2
    · have := ih c' h
      rw [List.reverse_cons, List.append_assoc] at this
      simpa using this
    · rcases List.mem_cons.mp h with rfl | hm
      · simp
      · have := ih c' hm
        simp only [List.reverse_nil, List.nil_append] at this
        simp [this]
    · rcases List.mem_append.mp h with hm | hm
      · simp [hm]
      · rcases List.mem_cons.mp hm with rfl | hm2
        · simp
        · have := ih c' hm2
          simp only [List.reverse_nil, List.nil_append] at this
          simp [this]

theorem getLastQCons {c : Char} {t : List Char} (h : t ≠ []) :
    (c :: t).getLast? = t.getLast? := by
  cases t with
  | nil => exact absurd rfl h
  | cons b tb => exact List.getLast?_cons_cons

theorem getLastQAppend {m n : List Char} (h : n ≠ []) :
    (m ++ n).getLast? = n.getLast? := by
  rw [List.getLast?_append]
  rcases hn : n.getLast? with _ | z
  · rw [List.getLast?_eq_none_iff] at hn
    exact absurd hn h
  · rfl

theorem subBGo_getLast {p : Char → Bool} :
    ∀ {l run : List Char},
      (subBGo p run l).getLast? = (run.reverse ++ l).getLast? := by
  intro l
  induction l with
  | nil =>
    intro run
    rw [subBGo_nil, List.append_nil]
  | cons c cs ih =>
    intro run
    have hRHS : (run.reverse ++ c :: cs).getLast? = (c :: cs).getLast? :=
      getLastQAppend (by simp)
    simp only [subBGo]
    split_ifs with h1 h2
    · rw [ih, List.reverse_cons, List.append_assoc]
      rfl
    · rw [hRHS]
      by_cases hcs : cs = []
      · subst hcs
        rfl
      · have hne : subBGo p [] cs ≠ [] := fun hc => hcs (subBGo_empty hc).2
        rw [getLastQCons hne, getLastQCons hcs]
        simpa using @ih []
    · rw [hRHS, getLastQAppend (by simp)]
      by_cases hcs : cs = []
      · subst hcs
        rfl
      · have hne : subBGo p [] cs ≠ [] := fun hc => hcs (subBGo_empty hc).2
        rw [getLastQCons hne, getLastQCons hcs]
        simpa using @ih []

theorem subBGo_chain {p : Char → Bool} {R : Char → Char → Prop}
    (hps : ∀ c, p c = true → pyIsSpace c = false)
    (hp : ∀ x c, pyIsSpace x = false → p c = true → R x c) :
    ∀ {l run : List Char},
      (∀ c ∈ run, pyIsSpace c = true) →
      List.Chain' R (run.reverse ++ l) →
      List.Chain' R (subBGo p run l) := by
  intro l
  induction l with
  | nil =>
    intro run _ hch
    rw [subBGo_nil]
    rw [List.append_nil] at hch
    exact hch
  | cons c cs ih =>
    intro run hrun hch
    simp only [subBGo]
    split_ifs with h1 h2
    · apply ih
      · intro x hx
        rcases List.mem_cons.mp hx with rfl | hx2
        · exact h1
        · exact hrun x hx2
      · rw [List.reverse_cons, List.append_assoc]
        exact hch
    · have hcsCh : List.Chain' R (c :: cs) :=
        chainSuffixPres hch (List.suffix_append _ _)
      rw [List.chain'_cons']
      constructor
      · intro y hy
        rcases subBGo_head (Option.mem_def.mp hy) with hm | hm
        · exact (List.chain'_cons'.mp hcsCh).1 y (by simpa using hm)
        · exact hp c y (hps c h2) hm
      · apply @ih [] (by simp)
        simpa using (List.chain'_cons'.mp hcsCh).2
    · have hcsCh : List.Chain' R (c :: cs) :=
        chainSuffixPres hch (List.suffix_append _ _)
      rw [List.chain'_append]
      refine ⟨chainPrefixPres hch (List.prefix_append _ _), ?_, ?_⟩
      · rw [List.chain'_cons']
        constructor
        · intro y hy
          rcases subBGo_head (Option.mem_def.mp hy) with hm | hm
          · exact (List.chain'_cons'.mp hcsCh).1 y (by simpa using hm)
          · exact hp c y (by simpa using h1) hm
        · apply @ih [] (by simp)
          simpa using (List.chain'_cons'.mp hcsCh).2
      · intro x hx y hy
        simp only [List.head?_cons, Option.mem_def, Option.some.injEq] at hy
        subst hy
        exact (List.chain'_append.mp hch).2.2 x hx c (by simp)

theorem allSpace_noSpaceThen {p : Char → Bool}
    (hps : ∀ c, p c = true → pyIsSpace c = false) :
    ∀ {m : List Char}, (∀ c ∈ m, pyIsSpace c = true) → noSpaceThen p m := by
  intro m
  induction m with
  | nil => intro _; exact List.chain'_nil
  | cons a t ih =>
    intro hm
    unfold noSpaceThen
    rw [List.chain'_cons']
    constructor
    · intro y hy hcon
      have hyt : y ∈ t := List.mem_of_mem_head? hy
      have hfalse := hps y hcon.2
      rw [hm y (List.mem_cons_of_mem _ hyt)] at hfalse
      exact Bool.noConfusion hfalse
    · exact ih (fun c hc => hm c (List.mem_cons_of_mem _ hc))

theorem subBGo_noSpaceThen {p : Char → Bool}
    (hps : ∀ c, p c = true → pyIsSpace c = false) :
    ∀ {l run : List Char}, (∀ c ∈ run, pyIsSpace c = true) →
      noSpaceThen p (subBGo p run l) := by
  intro l
  induction l with
  | nil =>
    intro run hrun
    rw [subBGo_nil]
    exact allSpace_noSpaceThen hps (fun c hc => hrun c (List.mem_reverse.mp hc))
  | cons c cs ih =>
    intro run hrun
    simp only [subBGo]
    split_ifs with h1 h2
    · apply ih
      intro x hx
      rcases List.mem_cons.mp hx with rfl | hx2
      · exact h1
      · exact hrun x hx2
    · unfold noSpaceThen
      rw [List.chain'_cons']
      refine ⟨?_, @ih [] (by simp)⟩
      intro y _ hcon
      have hfalse := hps c h2
      rw [hcon.1] at hfalse
      exact Bool.noConfusion hfalse
    · unfold noSpaceThen
      rw [List.chain'_append]
      refine ⟨?_, ?_, ?_⟩
      · exact allSpace_noSpaceThen hps (fun x hx => hrun x (List.mem_reverse.mp hx))
      · rw [List.chain'_cons']
        refine ⟨?_, @ih [] (by simp)⟩
        intro y _ hcon
        exact h1 hcon.1
      · intro x hx y hy hcon
        simp only [List.head?_cons, Option.mem_def, Option.some.injEq] at hy
        subst hy
        exact h2 hcon.2

theorem subBGo_id {p : Char → Bool} :
    ∀ {l run : List Char}, (∀ c ∈ run, pyIsSpace c = true) →
      noSpaceThen p (run.reverse ++ l) →
      subBGo p run l = run.reverse ++ l := by
  intro l
  induction l with
  | nil =>
    intro run _ _
    rw [subBGo_nil, List.append_nil]
  | cons c cs ih =>
    intro run hrun hch
    simp only [subBGo]
    split_ifs with h1 h2
    · have hr' : ∀ x ∈ c :: run, pyIsSpace x = true := by
        intro x hx
        rcases List.mem_cons.mp hx with rfl | hx2
        · exact h1
        · exact hrun x hx2
      have hch' : noSpaceThen p ((c :: run).reverse ++ cs) := by
        rw [List.reverse_cons, List.append_assoc]
        exact hch
      rw [ih hr' hch']
      simp
    · cases run with
      | nil =>
        have hcCs : noSpaceThen p (c :: cs) := by
          have h0 := hch
          simp only [List.reverse_nil, List.nil_append] at h0
          exact h0
        have hcs : noSpaceThen p cs := (List.chain'_cons'.mp hcCs).2
        have heq := @ih [] (by simp) (by simpa using hcs)
        simp only [List.reverse_nil, List.nil_append] at heq ⊢
        rw [heq]
      | cons r0 rr =>
        exfalso
        have h3 := (List.chain'_append.mp hch).2.2
        have hx : (r0 :: rr).reverse.getLast? = some r0 := by
          rw [List.getLast?_reverse]
          rfl
        exact h3 r0 hx c (by simp) ⟨hrun r0 (by simp), h2⟩
    · have hcCs : noSpaceThen p (c :: cs) :=
        chainSuffixPres hch (List.suffix_append _ _)
      have hcs : noSpaceThen p cs := (List.chain'_cons'.mp hcCs).2
      have heq := @ih [] (by simp) (by simpa using hcs)
      simp only [List.reverse_nil, List.nil_append] at heq
      rw [heq]

theorem subAGo_false_head (p : Char → Bool) (l : List Char) :
    (subAGo p false l).head? = l.head? := by
  cases l with
  | nil => rfl
  | cons c cs =>
    simp only [subAGo, Bool.false_and]
    rw [if_neg (by decide)]
    split_ifs <;> rfl

theorem subAGo_true_head {p : Char → Bool}
    (hps : ∀ c, p c = true → pyIsSpace c = false) :
    ∀ {l : List Char} {y : Char},
      (subAGo p true l).head? = some y → pyIsSpace y = false := by
  intro l
  induction l with
  | nil =>
    intro y h
    exact Option.noConfusion h
  | cons c cs ih =>
    intro y h
    simp only [subAGo] at h
    split_ifs at h with h1 h2
    · exact ih h
    · rw [List.head?_cons, Option.some.injEq] at h
      subst h
      exact hps c h2
    · rw [List.head?_cons, Option.some.injEq] at h
      subst h
      simpa using h1

theorem subAGo_empty {p : Char → Bool} :
    ∀ {l : List Char} {b : Bool}, subAGo p b l = [] →
      ∀ c ∈ l, pyIsSpace c = true := by
  intro l
  induction l with
  | nil =>
    intro b _ c hc
    exact absurd hc (List.not_mem_nil c)
  | cons a t ih =>
    intro b h c hc
    simp only [subAGo] at h
    split_ifs at h with h1 h2
    · rcases List.mem_cons.mp hc with rfl | hc2
      · simp only [Bool.and_eq_true] at h1
        exact h1.2
      · exact ih h c hc2

theorem subAGo_subset {p : Char → Bool} :
    ∀ {l : List Char} (b : Bool), ∀ c' ∈ subAGo p b l, c' ∈ l := by
  intro l
  induction l with
  | nil =>
    intro b c' hc'
    exact absurd hc' (List.not_mem_nil c')
  | cons c cs ih =>
    intro b c' hc'
    simp only [subAGo] at hc'
    split_ifs at hc' with h1 h2
    · exact List.mem_cons_of_mem _ (ih true c' hc')
    · rcases List.mem_cons.mp hc' with rfl | hm
      · exact List.mem_cons_self _ _
      · exact List.mem_cons_of_mem _ (ih true c' hm)
    · rcases List.mem_cons.mp hc' with rfl | hm
      · exact List.mem_cons_self _ _
      · exact List.mem_cons_of_mem _ (ih false c' hm)

theorem subAGo_chain {p : Char → Bool} {R : Char → Char → Prop}
    (hps : ∀ c, p c = true → pyIsSpace c = false)
    (hA : ∀ a y, p a = true → pyIsSpace y = false → R a y) :
    ∀ {l : List Char} (b : Bool), List.Chain' R l →
      List.Chain' R (subAGo p b l) := by
  intro l
  induction l with
  | nil =>
    intro b _
    exact List.chain'_nil
  | cons c cs ih =>
    intro b hch
    have htl : List.Chain' R cs := List.Chain'.tail hch
    simp only [subAGo]
    split_ifs with h1 h2
    · exact ih true htl
    · rw [List.chain'_cons']
      refine ⟨?_, ih true htl⟩
      intro y hy
      exact hA c y h2 (subAGo_true_head hps (Option.mem_def.mp hy))
    · rw [List.chain'_cons']
      refine ⟨?_, ih false htl⟩
      intro y hy
      rw [Option.mem_def, subAGo_false_head] at hy
      exact (List.chain'_cons'.mp hch).1 y hy

theorem subAGo_noThenSpace {p : Char → Bool}
    (hps : ∀ c, p c = true → pyIsSpace c = false) :
    ∀ {l : List Char} (b : Bool), noThenSpace p (subAGo p b l) := by
  intro l
  induction l with
  | nil =>
    intro b
    exact List.chain'_nil
  | cons c cs ih =>
    intro b
    simp only [subAGo]
    split_ifs with h1 h2
    · exact ih true
    · unfold noThenSpace
      rw [List.chain'_cons']
      refine ⟨?_, ih true⟩
      intro y hy hcon
      have hfalse := subAGo_true_head hps (Option.mem_def.mp hy)
      rw [hcon.2] at hfalse
      exact Bool.noConfusion hfalse
    · unfold noThenSpace
      rw [List.chain'_cons']
      refine ⟨?_, ih false⟩
      intro y _ hcon
      exact h2 hcon.1

theorem subAGo_getLast {p : Char → Bool} :
    ∀ {l : List Char} (b : Bool), lastNotSpace l →
      (subAGo p b l).getLast? = l.getLast? := by
  intro l
  induction l with
  | nil =>
    intro b _
    rfl
  | cons c cs ih =>
    intro b hl
    have hlIff := (lastNotSpace_iff _).mp hl
    simp only [subAGo]
    split_ifs with h1 h2
    · have hsp : pyIsSpace c = true := by
        simp only [Bool.and_eq_true] at h1
        exact h1.2
      have hcs : cs ≠ [] := by
        intro he
        subst he
        have hfalse := hlIff c rfl
        rw [hsp] at hfalse
        exact Bool.noConfusion hfalse
      have hl' : lastNotSpace cs := by
        rw [lastNotSpace_iff]
        intro x hx
        exact hlIff x (by rw [getLastQCons hcs]; exact hx)
      rw [ih true hl', getLastQCons hcs]
    · by_cases hcs : cs = []
      · subst hcs
        rfl
      · have hl' : lastNotSpace cs := by
          rw [lastNotSpace_iff]
          intro x hx
          exact hlIff x (by rw [getLastQCons hcs]; exact hx)
        have hne : subAGo p true cs ≠ [] := by
          intro he
          rcases hx : cs.getLast? with _ | x
          · exact hcs (List.getLast?_eq_none_iff.mp hx)
          · have hxm : x ∈ cs := List.mem_of_getLast?_eq_some hx
            have hxs := subAGo_empty he x hxm
            have hxn := (lastNotSpace_iff _).mp hl' x hx
            rw [hxs] at hxn
            exact Bool.noConfusion hxn
        rw [getLastQCons hne, getLastQCons hcs, ih true hl']
    · by_cases hcs : cs = []
      · subst hcs
        rfl
      · have hl' : lastNotSpace cs := by
          rw [lastNotSpace_iff]
          intro x hx
          exact hlIff x (by rw [getLastQCons hcs]; exact hx)
        have hne : subAGo p false cs ≠ [] := by
          intro he
          rcases hx : cs.getLast? with _ | x
          · exact hcs (List.getLast?_eq_none_iff.mp hx)
          · have hxm : x ∈ cs := List.mem_of_getLast?_eq_some hx
            have hxs := subAGo_empty he x hxm
            have hxn := (lastNotSpace_iff _).mp hl' x hx
            rw [hxs] at hxn
            exact Bool.noConfusion hxn
        rw [getLastQCons hne, getLastQCons hcs, ih false hl']

theorem subAGo_id {p : Char → Bool} :
    ∀ {l : List Char} {b : Bool}, noThenSpace p l →
      (b = true → headNotSpace l) → subAGo p b l = l := by
  intro l
  induction l with
  | nil =>
    intro b _ _
    rfl
  | cons c cs ih =>
    intro b hch hb
    simp only [subAGo]
    split_ifs with h1 h2
    · exfalso
      simp only [Bool.and_eq_true] at h1
      rcases h1 with ⟨hb1, hsp⟩
      have hhead := hb hb1
      simp only [headNotSpace] at hhead
      rw [hsp] at hhead
      exact Bool.noConfusion hhead
    · congr 1
      apply ih (List.Chain'.tail hch)
      intro _
      cases cs with
      | nil => trivial
      | cons d t =>
        have hpair := (List.chain'_cons'.mp hch).1 d (by simp)
        simp only [headNotSpace]
        cases hdp : pyIsSpace d
        · rfl
        · exact absurd ⟨h2, hdp⟩ hpair
    · congr 1
      exact ih (List.Chain'.tail hch) (fun hf => absurd hf (by decide))

theorem commaTok_nonspace : ∀ c, commaTok c = true → pyIsSpace c = false := by
  intro c h
  unfold commaTok at h
  have hc := of_decide_eq_true h
  subst hc
  decide

theorem closeTok_nonspace : ∀ c, closeTok c = true → pyIsSpace c = false := by
  intro c h
  unfold closeTok at h
  simp only [Bool.or_eq_true, decide_eq_true_eq] at h
  rcases h with rfl | rfl <;> decide

theorem openTok_nonspace : ∀ c, openTok c = true → pyIsSpace c = false := by
  intro c h
  unfold openTok at h
  simp only [Bool.or_eq_true, decide_eq_true_eq] at h
  rcases h with rfl | rfl <;> decide

theorem subWsBefore_subset {p : Char → Bool} {l : List Char} :
    ∀ c ∈ subWsBefore p l, c ∈ l := by
  intro c hc
  have hc' : c ∈ subBGo p [] l := hc
  have hm := subBGo_subset c hc'
  simpa using hm

theorem subWsBefore_headNot {p : Char → Bool}
    (hps : ∀ c, p c = true → pyIsSpace c = false) {l : List Char}
    (h : headNotSpace l) : headNotSpace (subWsBefore p l) := by
  rw [headNotSpace_iff] at h ⊢
  intro c hc
  have hc' : (subBGo p [] l).head? = some c := hc
  rcases subBGo_head hc' with hm | hm
  · exact h c (by simpa using hm)
  · exact hps c hm

theorem subWsBefore_lastNot {p : Char → Bool} {l : List Char}
    (h : lastNotSpace l) : lastNotSpace (subWsBefore p l) := by
  rw [lastNotSpace_iff] at h ⊢
  intro c hc
  have hc' : (subBGo p [] l).getLast? = some c := hc
  rw [subBGo_getLast] at hc'
  exact h c (by simpa using hc')

theorem subWsBefore_chain {p : Char → Bool} {R : Char → Char → Prop}
    (hps : ∀ c, p c = true → pyIsSpace c = false)
    (hp : ∀ x c, pyIsSpace x = false → p c = true → R x c) {l : List Char}
    (h : List.Chain' R l) : List.Chain' R (subWsBefore p l) := by
  have hg := @subBGo_chain p R hps hp l [] (by simp) (by simpa using h)
  exact hg

theorem subWsBefore_noSpaceThen {p : Char → Bool}
    (hps : ∀ c, p c = true → pyIsSpace c = false) (l : List Char) :
    noSpaceThen p (subWsBefore p l) :=
  subBGo_noSpaceThen hps (by simp)

theorem subWsBefore_id {p : Char → Bool} {l : List Char}
    (h : noSpaceThen p l) : subWsBefore p l = l := by
  show subBGo p [] l = l
  have hg := @subBGo_id p l [] (by simp) (by simpa using h)
  simpa using hg

theorem subWsAfter_subset {p : Char → Bool} {l : List Char} :
    ∀ c ∈ subWsAfter p l, c ∈ l := by
  intro c hc
  exact subAGo_subset false c hc

theorem subWsAfter_headNot {p : Char → Bool} {l : List Char}
    (h : headNotSpace l) : headNotSpace (subWsAfter p l) := by
  rw [headNotSpace_iff] at h ⊢
  intro c hc
  have hc' : (subAGo p false l).head? = some c := hc
  rw [subAGo_false_head] at hc'
  exact h c hc'

theorem subWsAfter_lastNot {p : Char → Bool} {l : List Char}
    (h : lastNotSpace l) : lastNotSpace (subWsAfter p l) := by
  have e := subAGo_getLast (p := p) false h
  rw [lastNotSpace_iff] at h ⊢
  intro c hc
  have hc' : (subAGo p false l).getLast? = some c := hc
  rw [e] at hc'
  exact h c hc'

theorem subWsAfter_chain {p : Char → Bool} {R : Char → Char → Prop}
    (hps : ∀ c, p c = true → pyIsSpace c = false)
    (hA : ∀ a y, p a = true → pyIsSpace y = false → R a y) {l : List Char}
    (h : List.Chain' R l) : List.Chain' R (subWsAfter p l) :=
  subAGo_chain hps hA false h

theorem subWsAfter_noThen {p : Char → Bool}
    (hps : ∀ c, p c = true → pyIsSpace c = false) (l : List Char) :
    noThenSpace p (subWsAfter p l) :=
  subAGo_noThenSpace hps false

theorem subWsAfter_id {p : Char → Bool} {l : List Char}
    (h : noThenSpace p l) : subWsAfter p l = l :=
  subAGo_id h (fun hf => absurd hf (by decide))

theorem tokPipeline_norm {l : List Char} (hccc : ∀ c ∈ l, cccM c = 0) :
    tokNorm (tokPipeline l) := by
  have hm2 : ∀ c ∈ replNbspZw (nfkcL l),
      kDecomp c = none ∧ cccM c = 0 ∧ c ≠ chZwsp ∧ c ≠ chBom := by
    intro c hc
    have h := replNbspZw_mem c hc
    rcases h.1 with rfl | hc1
    · exact ⟨by decide, by decide, by decide, by decide⟩
    · have hn := (nfkcL_P0 hccc).2 c hc1
      exact ⟨hn.1, hn.2, h.2.1, h.2.2.1⟩
  have hm4 : ∀ c ∈ pyStripL (collapseWs (replNbspZw (nfkcL l))), inertTok c := by
    intro c hc
    have hc3 := pyStripL_mem c hc
    rcases collapseGo_mem false _ c hc3 with rfl | ⟨hc2, hns⟩
    · exact ⟨by decide, by decide, by decide, by decide, fun _ => rfl⟩
    · have h2 := hm2 c hc2
      exact ⟨h2.1, h2.2.1, h2.2.2.1, h2.2.2.2,
        fun hs => absurd (hns.symm.trans hs) (by decide)⟩
  have hnd4 : noDoubleSpace (pyStripL (collapseWs (replNbspZw (nfkcL l)))) :=
    pyStripL_chain (collapseGo_chain false _)
  have hh4 : headNotSpace (pyStripL (collapseWs (replNbspZw (nfkcL l)))) :=
    pyStripL_head _
  have hl4 : lastNotSpace (pyStripL (collapseWs (replNbspZw (nfkcL l)))) :=
    pyStripL_last _
  unfold tokPipeline
  set L4 := pyStripL (collapseWs (replNbspZw (nfkcL l)))
  set L5 := subWsBefore commaTok L4
  set L6 := subWsBefore closeTok L5
  have hm5 : ∀ c ∈ L5, inertTok c := fun c hc => hm4 c (subWsBefore_subset c hc)
  have hh5 : headNotSpace L5 := subWsBefore_headNot commaTok_nonspace hh4
  have hl5 : lastNotSpace L5 := subWsBefore_lastNot hl4
  have hnd5 : noDoubleSpace L5 :=
    subWsBefore_chain (R := fun a b => ¬(pyIsSpace a = true ∧ pyIsSpace b = true))
      commaTok_nonspace
      (fun x c hx _ hcon => absurd (hx.symm.trans hcon.1) (by decide)) hnd4
  have hsc5 : noSpaceThen commaTok L5 := subWsBefore_noSpaceThen commaTok_nonspace L4
  have hm6 : ∀ c ∈ L6, inertTok c := fun c hc => hm5 c (subWsBefore_subset c hc)
  have hh6 : headNotSpace L6 := subWsBefore_headNot closeTok_nonspace hh5
  have hl6 : lastNotSpace L6 := subWsBefore_lastNot hl5
  have hnd6 : noDoubleSpace L6 :=
    subWsBefore_chain (R := fun a b => ¬(pyIsSpace a = true ∧ pyIsSpace b = true))
      closeTok_nonspace
      (fun x c hx _ hcon => absurd (hx.symm.trans hcon.1) (by decide)) hnd5
  have hsc6cm : noSpaceThen commaTok L6 :=
    subWsBefore_chain (R := fun a b => ¬(pyIsSpace a = true ∧ commaTok b = true))
      closeTok_nonspace
      (fun x c hx _ hcon => absurd (hx.symm.trans hcon.1) (by decide)) hsc5
  have hsc6cl : noSpaceThen closeTok L6 := subWsBefore_noSpaceThen closeTok_nonspace L5
  have hm7 : ∀ c ∈ subWsAfter openTok L6, inertTok c :=
    fun c hc => hm6 c (subWsAfter_subset c hc)
  have hh7 : headNotSpace (subWsAfter openTok L6) := subWsAfter_headNot hh6
  have hl7 : lastNotSpace (subWsAfter openTok L6) := subWsAfter_lastNot hl6
  have hnd7 : noDoubleSpace (subWsAfter openTok L6) :=
    subWsAfter_chain (R := fun a b => ¬(pyIsSpace a = true ∧ pyIsSpace b = true))
      openTok_nonspace
      (fun a y ha _ hcon => absurd ((openTok_nonspace a ha).symm.trans hcon.1) (by decide))
      hnd6
  have hcm7 : noSpaceThen commaTok (subWsAfter openTok L6) :=
    subWsAfter_chain (R := fun a b => ¬(pyIsSpace a = true ∧ commaTok b = true))
      openTok_nonspace
      (fun a y ha _ hcon => absurd ((openTok_nonspace a ha).symm.trans hcon.1) (by decide))
      hsc6cm
  have hcl7 : noSpaceThen closeTok (subWsAfter openTok L6) :=
    subWsAfter_chain (R := fun a b => ¬(pyIsSpace a = true ∧ closeTok b = true))
      openTok_nonspace
      (fun a y ha _ hcon => absurd ((openTok_nonspace a ha).symm.trans hcon.1) (by decide))
      hsc6cl
  have hop7 : noThenSpace openTok (subWsAfter openTok L6) :=
    subWsAfter_noThen openTok_nonspace L6
  exact ⟨hm7, hnd7, hh7, hl7, hcm7, hcl7, hop7⟩

theorem tokPipeline_id {l : List Char} (h : tokNorm l) : tokPipeline l = l := by
  obtain ⟨hin, hnd, hh, hl, hcm, hcl, hop⟩ := h
  have hnbsp : ∀ c ∈ l, c ≠ chNbsp ∧ c ≠ chZwsp ∧ c ≠ chBom := by
    intro c hc
    refine ⟨?_, (hin c hc).2.2.1, (hin c hc).2.2.2.1⟩
    intro he
    subst he
    have hsp := (hin _ hc).2.2.2.2 (by decide)
    exact absurd hsp (by decide)
  unfold tokPipeline
  rw [nfkcL_id (fun c hc => ⟨(hin c hc).1, (hin c hc).2.1⟩)]
  rw [replNbspZw_id hnbsp]
  have hcw : collapseWs l = l :=
    collapseGo_id (fun c hc => (hin c hc).2.2.2.2) hnd
  rw [hcw, pyStripL_id hh hl]
  have e1 : subWsBefore commaTok l = l := subWsBefore_id hcm
  rw [e1]
  have e2 : subWsBefore closeTok l = l := subWsBefore_id hcl
  rw [e2]
  exact subWsAfter_id hop

/-- Claim C8, counterexample.  The text normalizer `_clean_token` is NOT
idempotent on all strings: on "a" followed by ZERO WIDTH SPACE and COMBINING
ACUTE ACCENT, the first pass deletes the zero-width space (leaving the accent
next to the "a") and the second pass then NFKC-composes the pair into a
single precomposed character, so normalizing twice differs from normalizing
once. -/
theorem C8_normalize_counterexample :
    clean_token (clean_token (String.mk ['a', chZwsp, chAcute])) ≠
      clean_token (String.mk ['a', chZwsp, chAcute]) := by
  decide

/-- Ascii characters carry combining class 0 (the one entry of the restricted
table, U+0301, is not ASCII; real Unicode likewise assigns every ASCII
character class 0). -/
theorem cccM_ascii {c : Char} (h : c.toNat < 128) : cccM c = 0 := by
  have hne : c ≠ chAcute := by
    intro he
    subst he
    exact absurd h (by decide)
  unfold cccM
  rw [if_neg hne]

/-- Claim C8 (amended): `_clean_token` is a pure total function, and it is
idempotent on every ASCII string (`normalize(normalize(x)) = normalize(x)`
whenever every code point of `x` is below 128).  On ASCII, NFKC is the
identity and the pipeline is exactly the whitespace/punctuation cascade: one
pass lands in the pipeline's normal form, which every later pass fixes.
Beyond ASCII even strings without combining marks can fail, because a
compatibility decomposition may introduce a combining mark (e.g. U+FF9E
decomposes to U+3099), which a deleted zero-width space then exposes to
composition on the second pass. -/
theorem C8_normalize_idempotent (s : String) (hA : allAscii s) :
    clean_token (clean_token s) = clean_token s := by
  have hccc : ∀ c ∈ s.data, cccM c = 0 := fun c hc => cccM_ascii (hA c hc)
  have hnorm := tokPipeline_norm hccc
  have hid := tokPipeline_id hnorm
  by_cases hs : s = ""
  · subst hs
    rfl
  · simp only [clean_token, if_neg hs]
    by_cases h2 : String.mk (tokPipeline s.data) = ""
    · rw [if_pos h2, h2]
    · rw [if_neg h2]
      congr 1

/-- Claim C8, witness: the idempotence theorem applied to the concrete ASCII
string "Foo ( Bar )". -/
theorem C8_normalize_idempotent_witness :
    allAscii "Foo ( Bar )" ∧
      clean_token (clean_token "Foo ( Bar )") = clean_token "Foo ( Bar )" :=
  ⟨by unfold allAscii; decide,
    C8_normalize_idempotent "Foo ( Bar )" (by unfold allAscii; decide)⟩
